import Mathlib

/-!
# Runtime support of a compiled Turing machine (`src/rt.c`)

A shallow embedding of `rt.c`: the alphabet test `is_isym`, the input reader
`read_input` with its chunked `fread` loop and its `mbrtowc` decode loop, the
output scan `write_output`, the failure reporter `tm_fail` and the entry point
`tm_run`.

Conventions.
* A byte is a `Nat` (a value below 256 in every real buffer); a tape cell and a
  symbol are `Nat`s standing for 32-bit patterns; Blank is `0`.
* An alphabet is the pair of the C code: `isyms : Nat → Nat` is the array behind
  the pointer (index to entry) and `num_isyms` is its count.
* The tape is addressed in cells relative to `tape_start`, so the automaton's
  initial head is cell `0` and the scratch buffer is cells `-2048 .. -1`.
* The C library is not part of the repository. `fread`, `mbrtowc` and `isprint`
  are modelled from ISO C and, for the encoding, RFC 3629.
-/

namespace TuringRT

/-! ## Constants -/

/-- `#define TAPE_SIZE (1u<<31)`. -/
def TAPE_SIZE : Nat := 2 ^ 31

/-- `#define STDIN_BUFSIZE 8192`. -/
def STDIN_BUFSIZE : Nat := 8192

/-- `#define PREFIX "libturingrt: "`. -/
def PREFIX : String := "libturingrt: "

/-- Value of `EXIT_FAILURE`. -/
def EXIT_FAILURE : Nat := 1

/-- Value of `errno` after an encoding error (`EILSEQ`). -/
def EILSEQ : Nat := 84

/-- Size in bytes of one tape cell (`sizeof(wchar_t)`, `sizeof(uint32_t)`). -/
def CELL_BYTES : Nat := 4

/-! ## `is_isym` -/

/-- The `for` loop of `is_isym`: `k` entries remain to be looked at, the next
one has index `i`. -/
def is_isym_loop (which : Nat) (isyms : Nat → Nat) : Nat → Nat → Bool
  | 0, _ => false
  | k + 1, i => if which = isyms i then true else is_isym_loop which isyms k (i + 1)

/-- `static bool is_isym(uint32_t which, uint32_t *isyms, uint32_t num_isyms)`. -/
def is_isym (which : Nat) (isyms : Nat → Nat) (num_isyms : Nat) : Bool :=
  is_isym_loop which isyms num_isyms 0

/-! ## The C library: UTF-8 and `mbrtowc` -/

/-- Outcome of looking for one UTF-8 encoded scalar at the head of a byte
sequence. -/
inductive Decoded where
  /-- A well-formed sequence of `len` bytes encoding `wc` heads the input. -/
  | complete (wc : Nat) (len : Nat)
  /-- The input ends inside a sequence that is well formed so far. -/
  | incomplete
  /-- No well-formed sequence heads the input. -/
  | invalid
  deriving DecidableEq, Repr

/-- Continuation byte, `80 .. BF`. -/
def is_cont (b : Nat) : Bool := decide (0x80 ≤ b) && decide (b ≤ 0xBF)

/-- Range of the second byte of a three or four byte sequence (RFC 3629: no
overlong forms, no surrogates, nothing above `10FFFF`). -/
def second_ok (b0 b1 : Nat) : Bool :=
  if b0 = 0xE0 then decide (0xA0 ≤ b1) && decide (b1 ≤ 0xBF)
  else if b0 = 0xED then decide (0x80 ≤ b1) && decide (b1 ≤ 0x9F)
  else if b0 = 0xF0 then decide (0x90 ≤ b1) && decide (b1 ≤ 0xBF)
  else if b0 = 0xF4 then decide (0x80 ≤ b1) && decide (b1 ≤ 0x8F)
  else is_cont b1

/-- Decoding of one scalar from the head of a byte sequence, RFC 3629. -/
def utf8_decode : List Nat → Decoded
  | [] => Decoded.incomplete
  | b0 :: t =>
    if b0 < 0x80 then Decoded.complete b0 1
    else if 0xC2 ≤ b0 ∧ b0 ≤ 0xDF then
      match t with
      | [] => Decoded.incomplete
      | b1 :: _ =>
        if is_cont b1 then Decoded.complete ((b0 - 0xC0) * 64 + (b1 - 0x80)) 2
        else Decoded.invalid
    else if 0xE0 ≤ b0 ∧ b0 ≤ 0xEF then
      match t with
      | [] => Decoded.incomplete
      | b1 :: t1 =>
        if second_ok b0 b1 then
          match t1 with
          | [] => Decoded.incomplete
          | b2 :: _ =>
            if is_cont b2 then
              Decoded.complete ((b0 - 0xE0) * 4096 + (b1 - 0x80) * 64 + (b2 - 0x80)) 3
            else Decoded.invalid
        else Decoded.invalid
    else if 0xF0 ≤ b0 ∧ b0 ≤ 0xF4 then
      match t with
      | [] => Decoded.incomplete
      | b1 :: t1 =>
        if second_ok b0 b1 then
          match t1 with
          | [] => Decoded.incomplete
          | b2 :: t2 =>
            if is_cont b2 then
              match t2 with
              | [] => Decoded.incomplete
              | b3 :: _ =>
                if is_cont b3 then
                  Decoded.complete
                    ((b0 - 0xF0) * 262144 + (b1 - 0x80) * 4096 + (b2 - 0x80) * 64 + (b3 - 0x80)) 4
                else Decoded.invalid
            else Decoded.invalid
        else Decoded.invalid
    else Decoded.invalid

/-- UTF-8 encoding of a scalar, RFC 3629 (used to state what a decode consumed). -/
def utf8_encode (wc : Nat) : List Nat :=
  if wc < 0x80 then [wc]
  else if wc < 0x800 then [0xC0 + wc / 64, 0x80 + wc % 64]
  else if wc < 0x10000 then [0xE0 + wc / 4096, 0x80 + wc / 64 % 64, 0x80 + wc % 64]
  else [0xF0 + wc / 262144, 0x80 + wc / 4096 % 64, 0x80 + wc / 64 % 64, 0x80 + wc % 64]

/-- Conversion state `mbstate_t`: the bytes of a multibyte character that earlier
calls have consumed without completing it. The initial state has none. -/
structure mbstate_t where
  pending : List Nat
  deriving DecidableEq, Repr

/-- The initial conversion state. -/
def mbstate_init : mbstate_t := ⟨[]⟩

/-- What a call of `mbrtowc` leaves behind. -/
structure MbResult where
  /-- The return value, as converted by `int res = mbrtowc(...)`: a byte count,
  `0` for the null character, `-1` for an encoding error, `-2` for an incomplete
  character. -/
  res : Int
  /-- The wide character stored through `pwc`, if one was stored. -/
  wc : Option Nat
  /-- The conversion state after the call. -/
  state : mbstate_t
  /-- The value stored in `errno`, if the call stored one. -/
  err : Option Nat
  deriving DecidableEq, Repr

/-- Model of `mbrtowc(&wc, s, n, &state)` in a UTF-8 locale (ISO C 7.29.6.3.2).
`s` holds the bytes from the pointer to the end of the object; at most `n` of
them are inspected. The bytes pending in the state come first. A completed
character gives the number of bytes of this call that complete it (`0` for the
null character) and the initial state; an incomplete one gives `-2` with all `n`
bytes taken into the state; an encoding error gives `-1` and `EILSEQ`. ISO C
leaves the state after an encoding error unspecified: the model takes the initial
state. A state that already holds a whole character (no call produces one) is
treated as an encoding error. -/
def mbrtowc (s : List Nat) (n : Nat) (ps : mbstate_t) : MbResult :=
  match utf8_decode (ps.pending ++ s.take n) with
  | Decoded.complete wc len =>
    if len ≤ ps.pending.length then ⟨-1, none, mbstate_init, some EILSEQ⟩
    else if wc = 0 then ⟨0, some 0, mbstate_init, none⟩
    else ⟨((len - ps.pending.length : Nat) : Int), some wc, mbstate_init, none⟩
  | Decoded.incomplete => ⟨-2, none, ⟨ps.pending ++ s.take n⟩, none⟩
  | Decoded.invalid => ⟨-1, none, mbstate_init, some EILSEQ⟩

/-! ## Standard input -/

/-- One call of `fread` on standard input as the environment answers it: the
bytes delivered and the value the call stores in `errno` (`0`: it stores none). -/
structure Fread where
  bytes : List Nat
  err : Nat
  deriving DecidableEq, Repr

/-- Answers of successive `fread(buf, 1, bufsize, stdin)` calls on a stream that
holds the bytes `S` and reports no error: full chunks of `bufsize` bytes, a last
chunk that may be shorter; once the list is used up every further call returns
`0` (end of file). The first argument bounds the number of chunks. -/
def stream_chunks (bufsize : Nat) : Nat → List Nat → List Fread
  | 0, _ => []
  | fuel + 1, S =>
    if S = [] then [] else ⟨S.take bufsize, 0⟩ :: stream_chunks bufsize fuel (S.drop bufsize)

/-- Standard input holding exactly the bytes `S`, read without error. -/
def stream (bufsize : Nat) (S : List Nat) : List Fread :=
  stream_chunks bufsize S.length S

/-! ## `read_input` -/

/-- Variables of the decode loop of `read_input`. -/
structure Dec where
  /-- The local `offset`. -/
  offset : Nat
  /-- The cells stored through `tape` so far, in order: the pointer has been
  advanced by their number. -/
  tape : List Nat
  /-- The local `state`. -/
  state : mbstate_t
  /-- The global `errno`. -/
  errno : Nat
  deriving DecidableEq, Repr

/-- One pass through the body of `while (offset < bytes)`. -/
def decode_iter (buf : List Nat) (bufsize : Nat) (isyms : Nat → Nat) (num_isyms : Nat)
    (d : Dec) : Dec :=
  let r := mbrtowc (buf.drop d.offset) (bufsize - d.offset) d.state
  let errno := r.err.getD d.errno
  if 0 < r.res then
    let wc := r.wc.getD 0
    { offset := d.offset + r.res.toNat
      tape := if is_isym wc isyms num_isyms then d.tape ++ [wc] else d.tape
      state := r.state
      errno := errno }
  else
    { offset := d.offset + 1, tape := d.tape, state := r.state, errno := errno }

/-- The loop `while (offset < bytes)`, run for at most `fuel` passes; `none` when
the passes are used up with `offset < bytes` still true. -/
def decode_loop (buf : List Nat) (bufsize bytes : Nat) (isyms : Nat → Nat) (num_isyms : Nat) :
    Nat → Dec → Option Dec
  | 0, d => if d.offset < bytes then none else some d
  | fuel + 1, d =>
    if d.offset < bytes then
      decode_loop buf bufsize bytes isyms num_isyms fuel
        (decode_iter buf bufsize isyms num_isyms d)
    else some d

/-- State of `read_input` between two passes of its `for (;;)` loop. -/
structure Env where
  /-- Contents of the `bufsize` bytes at `buf`. -/
  buf : List Nat
  /-- The cells stored through `tape` so far. -/
  tape : List Nat
  /-- The local `state`. -/
  state : mbstate_t
  /-- The global `errno`. -/
  errno : Nat
  /-- Position of standard input: the answers of the reads not yet made. -/
  unread : List Fread
  deriving DecidableEq, Repr

/-- The loop `for (;;)` of `read_input` against the answers that `fread` will give
(the list argument, which is `unread` of the state). Each pass sets `errno = 0`,
reads, leaves the loop on a zero count, and otherwise decodes the `bytes` bytes
read; `fuel` bounds each decode loop. With no answer left the read returns `0`
and stores nothing in `errno`: end of file. -/
def read_loop (bufsize : Nat) (isyms : Nat → Nat) (num_isyms : Nat) (fuel : Nat) :
    List Fread → Env → Option Env
  | [], e => some { e with errno := 0, unread := [] }
  | r :: rest, e =>
    let chunk := r.bytes.take bufsize
    let bytes := chunk.length
    if bytes = 0 then some { e with errno := r.err, unread := rest }
    else
      let buf := chunk ++ e.buf.drop bytes
      match decode_loop buf bufsize bytes isyms num_isyms fuel ⟨0, e.tape, e.state, r.err⟩ with
      | none => none
      | some d =>
        read_loop bufsize isyms num_isyms fuel rest ⟨buf, d.tape, d.state, d.errno, rest⟩

/-- How a call ends: it returns to its caller, or the process exits. -/
inductive Ret (α : Type) where
  /-- The call returned. -/
  | returned (a : α)
  /-- The call ended the process by `exit(status)` after writing `stderr`. -/
  | exited (stderr : List String) (status : Nat)
  /-- The behaviour of the call is undefined: it stored outside the tape
  reservation, or it called a library function outside its domain. -/
  | undefined
  deriving DecidableEq, Repr

/-- `static void read_input(char *buf, size_t bufsize, wchar_t *tape, uint32_t *isyms,
uint32_t num_isyms)`. `stdin` is what the reads will deliver, `buf` the contents
of the buffer on entry and `state0` the indeterminate value of the uninitialised
local `state`. The call `setlocale(LC_ALL, "C.UTF-8")` selects the UTF-8 decoding
that `mbrtowc` models. The decode loop of a chunk gets `bufsize` passes, one per
byte a chunk can hold. `none`: a decode loop did not finish. -/
def read_input (stdin : List Fread) (state0 : mbstate_t) (buf : List Nat) (bufsize : Nat)
    (isyms : Nat → Nat) (num_isyms : Nat) : Option (Ret Env) :=
  match read_loop bufsize isyms num_isyms bufsize stdin ⟨buf, [], state0, 0, stdin⟩ with
  | none => none
  | some e =>
    if e.errno ≠ 0 then
      some (Ret.exited [PREFIX ++ "failed to read from standard input"] EXIT_FAILURE)
    else some (Ret.returned e)

/-- The cells that a finished `read_input` has stored, `none` when it did not
return. -/
def written : Option (Ret Env) → Option (List Nat)
  | some (Ret.returned e) => some e.tape
  | _ => none

/-! ## Output -/

/-- The tape: the symbol in each cell, cells numbered from `tape_start`. -/
abbrev Tape := Int → Nat

/-- Digit of `%X`. -/
def hex_digit (d : Nat) : Char :=
  if d < 10 then Char.ofNat (48 + d) else Char.ofNat (55 + d)

/-- Digits of `v` in base 16, most significant first; the first argument bounds
their number. -/
def hex_digits : Nat → Nat → List Char
  | 0, _ => []
  | fuel + 1, v =>
    if v < 16 then [hex_digit v] else hex_digits fuel (v / 16) ++ [hex_digit (v % 16)]

/-- The conversion `%04X` of a 32-bit value: upper-case hexadecimal, padded with
zeros on the left to four digits. -/
def fmt_04X (v : Nat) : String :=
  let ds := hex_digits 8 (v % 2 ^ 32)
  String.mk (List.replicate (4 - ds.length) '0' ++ ds)

/-- The text of `printf("Symbol U+%04X in output stream\n", *p)`. -/
def symbol_line (w : Nat) : String :=
  "Symbol U+" ++ fmt_04X w ++ " in output stream\n"

/-- `static void write_output(wchar_t *tape, uint32_t *isyms, uint32_t num_isyms)`:
the loop `for (p = tape; is_isym(*p, ...); p++) printf(...)` on the memory `tape`
from the cell `p`, run for at most `fuel` passes. The value is what was written
to standard output, one entry per `printf`; `none` when the passes are used up
and the loop test still holds. -/
def write_output (tape : Tape) (isyms : Nat → Nat) (num_isyms : Nat) :
    Nat → Int → Option (List String)
  | 0, p => if is_isym (tape p) isyms num_isyms then none else some []
  | fuel + 1, p =>
    if is_isym (tape p) isyms num_isyms then
      (write_output tape isyms num_isyms fuel (p + 1)).map (fun out => symbol_line (tape p) :: out)
    else some []

/-! ## `tm_fail` -/

/-- Model of `isprint` (ISO C 7.4) in the "C.UTF-8" locale that `read_input` has
set. The argument is an `int` whose value shall be representable as an
`unsigned char` or equal `EOF` (`-1`, which is what the 32-bit value `FFFFFFFF`
converts to); for these the printable characters are those of ASCII. For any
other argument the behaviour is undefined (glibc's macro indexes a table of 384
entries with the argument): `none`. -/
def isprint (c : Nat) : Option Bool :=
  if c ≤ 255 then some (decide (0x20 ≤ c) && decide (c ≤ 0x7E))
  else if c = 2 ^ 32 - 1 then some false
  else none

/-- The text `tm_fail` passes to `fprintf(stderr, ...)`; `none` when the call of
`isprint` is undefined. -/
def tm_fail_message (state : String) (symbol : Nat) : Option String :=
  if symbol = 0 then
    some (PREFIX ++ "No transition from " ++ state ++ " on symbol blank (U+0000)\n")
  else
    match isprint symbol with
    | none => none
    | some true =>
      some (PREFIX ++ "No transition from " ++ state ++ " on symbol \x27"
        ++ String.singleton (Char.ofNat (symbol % 256)) ++ "\x27 (U+" ++ fmt_04X symbol ++ ")\n")
    | some false =>
      some (PREFIX ++ "No transition from " ++ state ++ " on symbol U+" ++ fmt_04X symbol
        ++ "\n")

/-- `extern void tm_fail(const char *state, uint32_t symbol)`: one line on the
error stream, then `exit(EXIT_FAILURE)`. -/
def tm_fail {α : Type} (state : String) (symbol : Nat) : Ret α :=
  match tm_fail_message state symbol with
  | some line => Ret.exited [line] EXIT_FAILURE
  | none => Ret.undefined

/-! ## `tm_run` -/

/-- How a call of the compiled automaton ends: it returns its head, having left
the tape as `tape`, or it calls `tm_fail`. -/
inductive FnResult where
  | halt (tape : Tape) (new_tp : Int)
  | fail (state : String) (symbol : Nat)

/-- `typedef uint32_t *(*tm_func_t)(uint32_t *)`: the automaton gets the tape
memory and the cell its argument points to. -/
abbrev tm_func_t := Tape → Int → FnResult

/-- `memset(s, c, n)` on the contents of the object at `s`. -/
def memset (s : List Nat) (c : Nat) (n : Nat) : List Nat :=
  List.replicate (min n s.length) c ++ s.drop n

/-- The 32-bit cell made of the four bytes from index `4 * j` of a byte array
(little endian). -/
def cell_at (bytes : List Nat) (j : Nat) : Nat :=
  bytes.getD (CELL_BYTES * j) 0 + 256 * bytes.getD (CELL_BYTES * j + 1) 0
    + 65536 * bytes.getD (CELL_BYTES * j + 2) 0 + 16777216 * bytes.getD (CELL_BYTES * j + 3) 0

/-- The tape memory of `tm_run`, a fresh anonymous mapping (all zero) in which
`read_input` has worked: `cells` are the cells stored from `tape_start` on,
`buf` are the `STDIN_BUFSIZE` bytes of `stdin_buffer`, which are the cells
`-STDIN_BUFSIZE / 4 .. -1`; every other cell is still zero. -/
def tape_memory (buf : List Nat) (cells : List Nat) : Tape := fun i =>
  if 0 ≤ i then cells.getD i.toNat 0
  else if -((STDIN_BUFSIZE / CELL_BYTES : Nat) : Int) ≤ i then
    cell_at buf (i + ((STDIN_BUFSIZE / CELL_BYTES : Nat) : Int)).toNat
  else 0

/-- The part of `tm_run` before the call `fn(tape_start)`: the mapping, the call
of `read_input` with the buffer in the last `STDIN_BUFSIZE` bytes of the left
half, and the `memset`. The value is the tape memory handed to the automaton.
`mmap_failed` says whether `mmap` returned `MAP_FAILED`. The right half has room
for `TAPE_SIZE / 2 / 4` cells: storing more is undefined. -/
def tm_run_setup (mmap_failed : Bool) (stdin : List Fread) (state0 : mbstate_t)
    (isyms : Nat → Nat) (num_isyms : Nat) : Option (Ret Tape) :=
  if mmap_failed then
    some (Ret.exited [PREFIX ++ "Failed to acquire tape memory"] EXIT_FAILURE)
  else
    match read_input stdin state0 (List.replicate STDIN_BUFSIZE 0) STDIN_BUFSIZE
        isyms num_isyms with
    | none => none
    | some (Ret.exited err status) => some (Ret.exited err status)
    | some Ret.undefined => some Ret.undefined
    | some (Ret.returned e) =>
      if TAPE_SIZE / 2 / CELL_BYTES < e.tape.length then some Ret.undefined
      else some (Ret.returned (tape_memory (memset e.buf 0 STDIN_BUFSIZE) e.tape))

/-- `extern void tm_run(tm_func_t fn, uint32_t *isyms, uint32_t num_isyms)`. The
value is what the call wrote to standard output when it returns; `fuel` bounds
the passes of the loop of `write_output`. -/
def tm_run (fuel : Nat) (mmap_failed : Bool) (stdin : List Fread) (state0 : mbstate_t)
    (fn : tm_func_t) (isyms : Nat → Nat) (num_isyms : Nat) : Option (Ret (List String)) :=
  match tm_run_setup mmap_failed stdin state0 isyms num_isyms with
  | none => none
  | some (Ret.exited err status) => some (Ret.exited err status)
  | some Ret.undefined => some Ret.undefined
  | some (Ret.returned tape) =>
    match fn tape 0 with
    | FnResult.fail state symbol => some (tm_fail state symbol)
    | FnResult.halt tape1 new_tp =>
      (write_output tape1 isyms num_isyms fuel new_tp).map Ret.returned

/-! ## The decoding the specification describes -/

/-- Scalars of a byte sequence as the specification's decoding gives them: decode
one scalar at the current byte; on success take it and go on after its bytes; on
failure or on the null scalar go on one byte further. The first argument bounds
the number of steps. -/
def spec_decode : Nat → List Nat → List Nat
  | 0, _ => []
  | _ + 1, [] => []
  | fuel + 1, b :: t =>
    match utf8_decode (b :: t) with
    | Decoded.complete wc len =>
      if wc = 0 then spec_decode fuel t else wc :: spec_decode fuel ((b :: t).drop len)
    | _ => spec_decode fuel t

/-- The scalars decoded from the byte stream `S`. -/
def decoded_scalars (S : List Nat) : List Nat := spec_decode S.length S

/-- The symbols the specification puts on the tape for the stream `S`: the decoded
scalars that are members of the alphabet, in order. -/
def spec_tape (S : List Nat) (isyms : Nat → Nat) (num_isyms : Nat) : List Nat :=
  (decoded_scalars S).filter (fun w => is_isym w isyms num_isyms)

/-! ## The output format the specification describes -/

/-- Upper-case hexadecimal digit: `0 .. 9`, `A .. F`. -/
def is_upper_hex (c : Char) : Bool :=
  (decide (48 ≤ c.toNat) && decide (c.toNat ≤ 57)) || (decide (65 ≤ c.toNat) && decide (c.toNat ≤ 70))

/-- Value of an upper-case hexadecimal digit. -/
def hex_value (c : Char) : Nat :=
  if c.toNat ≤ 57 then c.toNat - 48 else c.toNat - 55

/-- The number that a string of hexadecimal digits denotes, most significant
digit first. -/
def hex_number (ds : List Char) : Nat :=
  ds.foldl (fun acc c => 16 * acc + hex_value c) 0

/-! ## Lemmas on the decoder and the loops -/

theorem is_cont_iff (b : Nat) : is_cont b = true ↔ 128 ≤ b ∧ b ≤ 191 := by
  simp [is_cont]

theorem second_ok_imp (b0 b1 : Nat) (h : second_ok b0 b1 = true) :
    128 ≤ b1 ∧ b1 ≤ 191 ∧ (b0 = 224 → 160 ≤ b1) ∧ (b0 = 237 → b1 ≤ 159) ∧
      (b0 = 240 → 144 ≤ b1) ∧ (b0 = 244 → b1 ≤ 143) := by
  unfold second_ok at h
  split at h
  · simp at h; omega
  · split at h
    · simp at h; omega
    · split at h
      · simp at h; omega
      · split at h
        · simp at h; omega
        · rw [is_cont_iff] at h; omega

theorem utf8_decode_complete (bs : List Nat) (wc len : Nat)
    (h : utf8_decode bs = Decoded.complete wc len) :
    ∃ rest, bs = utf8_encode wc ++ rest ∧ len = (utf8_encode wc).length ∧ 1 ≤ len ∧ len ≤ 4 := by
  unfold utf8_decode at h
  split at h
  · simp at h
  · rename_i b0 t
    split at h
    · rename_i h0
      simp only [Decoded.complete.injEq] at h
      obtain ⟨rfl, rfl⟩ := h
      exact ⟨t, by simp [utf8_encode, h0], by simp [utf8_encode, h0], by omega, by omega⟩
    · split at h
      · rename_i h0 h1
        split at h
        · simp at h
        · rename_i b1 t1
          split at h
          · rename_i hc
            simp only [Decoded.complete.injEq] at h
            obtain ⟨rfl, rfl⟩ := h
            rw [is_cont_iff] at hc
            have e1 : ¬ ((b0 - 192) * 64 + (b1 - 128) < 128) := by omega
            have e2 : (b0 - 192) * 64 + (b1 - 128) < 2048 := by omega
            have e3 : 192 + ((b0 - 192) * 64 + (b1 - 128)) / 64 = b0 := by omega
            have e4 : 128 + ((b0 - 192) * 64 + (b1 - 128)) % 64 = b1 := by omega
            refine ⟨t1, ?_, ?_, by omega, by omega⟩
            · rw [utf8_encode, if_neg e1, if_pos e2, e3, e4]; rfl
            · rw [utf8_encode, if_neg e1, if_pos e2]; rfl
          · simp at h
      · split at h
        · rename_i h0 h1 h2
          split at h
          · simp at h
          · rename_i b1 t1
            split at h
            · rename_i hs
              have hs := second_ok_imp _ _ hs
              split at h
              · simp at h
              · rename_i b2 t2
                split at h
                · rename_i hc
                  simp only [Decoded.complete.injEq] at h
                  obtain ⟨rfl, rfl⟩ := h
                  rw [is_cont_iff] at hc
                  have e0 : ¬ ((b0 - 224) * 4096 + (b1 - 128) * 64 + (b2 - 128) < 128) := by omega
                  have e1 : ¬ ((b0 - 224) * 4096 + (b1 - 128) * 64 + (b2 - 128) < 2048) := by omega
                  have e2 : (b0 - 224) * 4096 + (b1 - 128) * 64 + (b2 - 128) < 65536 := by omega
                  have e3 : 224 + ((b0 - 224) * 4096 + (b1 - 128) * 64 + (b2 - 128)) / 4096 = b0 := by omega
                  have e4 : 128 + ((b0 - 224) * 4096 + (b1 - 128) * 64 + (b2 - 128)) / 64 % 64 = b1 := by omega
                  have e5 : 128 + ((b0 - 224) * 4096 + (b1 - 128) * 64 + (b2 - 128)) % 64 = b2 := by omega
                  refine ⟨t2, ?_, ?_, by omega, by omega⟩
                  · rw [utf8_encode, if_neg e0, if_neg e1, if_pos e2, e3, e4, e5]; rfl
                  · rw [utf8_encode, if_neg e0, if_neg e1, if_pos e2]; rfl
                · simp at h
            · simp at h
        · split at h
          · rename_i h0 h1 h2 h3
            split at h
            · simp at h
            · rename_i b1 t1
              split at h
              · rename_i hs
                have hs := second_ok_imp _ _ hs
                split at h
                · simp at h
                · rename_i b2 t2
                  split at h
                  · rename_i hc2
                    split at h
                    · simp at h
                    · rename_i b3 t3
                      split at h
                      · rename_i hc3
                        simp only [Decoded.complete.injEq] at h
                        obtain ⟨rfl, rfl⟩ := h
                        rw [is_cont_iff] at hc2 hc3
                        have e0 : ¬ ((b0 - 240) * 262144 + (b1 - 128) * 4096 + (b2 - 128) * 64 + (b3 - 128) < 128) := by omega
                        have e1 : ¬ ((b0 - 240) * 262144 + (b1 - 128) * 4096 + (b2 - 128) * 64 + (b3 - 128) < 2048) := by omega
                        have e2 : ¬ ((b0 - 240) * 262144 + (b1 - 128) * 4096 + (b2 - 128) * 64 + (b3 - 128) < 65536) := by omega
                        have e3 : 240 + ((b0 - 240) * 262144 + (b1 - 128) * 4096 + (b2 - 128) * 64 + (b3 - 128)) / 262144 = b0 := by omega
                        have e4 : 128 + ((b0 - 240) * 262144 + (b1 - 128) * 4096 + (b2 - 128) * 64 + (b3 - 128)) / 4096 % 64 = b1 := by omega
                        have e5 : 128 + ((b0 - 240) * 262144 + (b1 - 128) * 4096 + (b2 - 128) * 64 + (b3 - 128)) / 64 % 64 = b2 := by omega
                        have e6 : 128 + ((b0 - 240) * 262144 + (b1 - 128) * 4096 + (b2 - 128) * 64 + (b3 - 128)) % 64 = b3 := by omega
                        refine ⟨t3, ?_, ?_, by omega, by omega⟩
                        · rw [utf8_encode, if_neg e0, if_neg e1, if_neg e2, e3, e4, e5, e6]; rfl
                        · rw [utf8_encode, if_neg e0, if_neg e1, if_neg e2]; rfl
                      · simp at h
                  · simp at h
              · simp at h
          · simp at h

/-- What `mbrtowc` returns: `-2`, `-1`, `0`, or a positive count together with a
non-null scalar whose encoding is the pending bytes followed by the bytes counted. -/
theorem mbrtowc_res (s : List Nat) (n : Nat) (ps : mbstate_t) :
    ((mbrtowc s n ps).res = -2 ∨ (mbrtowc s n ps).res = -1 ∨ (mbrtowc s n ps).res = 0) ∨
      (0 < (mbrtowc s n ps).res ∧ (mbrtowc s n ps).res ≤ 4 ∧
        (mbrtowc s n ps).res.toNat ≤ n ∧ (mbrtowc s n ps).res.toNat ≤ s.length ∧
        (mbrtowc s n ps).state = mbstate_init ∧ (mbrtowc s n ps).err = none ∧
        ∃ wc, (mbrtowc s n ps).wc = some wc ∧ wc ≠ 0 ∧
          ps.pending ++ s.take (mbrtowc s n ps).res.toNat = utf8_encode wc) := by
  unfold mbrtowc
  split
  · rename_i wc len hd
    obtain ⟨rest, hb, hl, h1, h4⟩ := utf8_decode_complete _ _ _ hd
    by_cases hp : len ≤ ps.pending.length
    · simp [hp]
    · by_cases hw : wc = 0
      · simp [hp, hw]
      · right
        simp only [hp, hw, if_false]
        have hlen : len ≤ ps.pending.length + (s.take n).length := by
          have := congrArg List.length hb
          simp only [List.length_append] at this
          omega
        have hk : len - ps.pending.length ≤ (s.take n).length := by omega
        rw [List.length_take] at hk
        refine ⟨by omega, by omega, by simp; omega, by simp; omega, trivial, trivial, wc, rfl, hw, ?_⟩
        have h2 := congrArg (List.take len) hb
        rw [List.take_append_eq_append_take, List.take_take] at h2
        rw [hl, List.take_left'] at h2
        · rw [← hl] at h2
          have e1 : List.take len ps.pending = ps.pending := List.take_of_length_le (by omega)
          have e2 : min (len - ps.pending.length) n = len - ps.pending.length := by omega
          rw [e1, e2] at h2
          simpa using h2
        · rfl
  · simp
  · simp

theorem decode_iter_offset_lt (buf : List Nat) (bufsize : Nat) (isyms : Nat → Nat)
    (num_isyms : Nat) (d : Dec) :
    d.offset < (decode_iter buf bufsize isyms num_isyms d).offset := by
  unfold decode_iter
  simp only
  split
  · rename_i h
    simp only
    omega
  · simp

theorem decode_loop_terminates (buf : List Nat) (bufsize bytes : Nat) (isyms : Nat → Nat)
    (num_isyms : Nat) (fuel : Nat) :
    ∀ d : Dec, bytes ≤ d.offset + fuel →
      ∃ d1, decode_loop buf bufsize bytes isyms num_isyms fuel d = some d1 ∧ bytes ≤ d1.offset := by
  induction fuel with
  | zero =>
    intro d h
    refine ⟨d, ?_, by omega⟩
    simp [decode_loop]; omega
  | succ k ih =>
    intro d h
    unfold decode_loop
    by_cases hlt : d.offset < bytes
    · simp only [hlt, if_true]
      apply ih
      have := decode_iter_offset_lt buf bufsize isyms num_isyms d
      omega
    · exact ⟨d, by simp [hlt], by omega⟩

theorem stream_chunks_mem (bufsize : Nat) (fuel : Nat) :
    ∀ (S : List Nat) (r : Fread), r ∈ stream_chunks bufsize fuel S →
      r.err = 0 ∧ (0 < bufsize → r.bytes.take bufsize ≠ []) := by
  induction fuel with
  | zero => intro S r h; simp [stream_chunks] at h
  | succ k ih =>
    intro S r h
    unfold stream_chunks at h
    by_cases hS : S = []
    · simp [hS] at h
    · simp only [hS, if_false, List.mem_cons] at h
      rcases h with h | h
      · subst h
        refine ⟨rfl, fun hb => ?_⟩
        simp only [List.take_take, Nat.min_self, ne_eq, List.take_eq_nil_iff]
        intro hc
        rcases hc with hc | hc
        · omega
        · exact hS hc
      · exact ih _ _ h

theorem stream_chunks_join (bufsize : Nat) (hb : 0 < bufsize) (fuel : Nat) :
    ∀ S : List Nat, S.length ≤ fuel →
      ((stream_chunks bufsize fuel S).map Fread.bytes).flatten = S := by
  induction fuel with
  | zero =>
    intro S h
    have : S = [] := List.length_eq_zero.mp (by omega)
    simp [stream_chunks, this]
  | succ k ih =>
    intro S h
    unfold stream_chunks
    by_cases hS : S = []
    · simp [hS]
    · simp only [hS, if_false, List.map_cons, List.flatten_cons]
      rw [ih]
      · exact List.take_append_drop _ _
      · have : 0 < S.length := List.length_pos.mpr hS
        rw [List.length_drop]; omega

theorem read_loop_returns (bufsize : Nat) (isyms : Nat → Nat) (num_isyms : Nat) :
    ∀ (stdin : List Fread) (e : Env), (∀ r ∈ stdin, r.err = 0) →
      ∃ e1, read_loop bufsize isyms num_isyms bufsize stdin e = some e1 ∧ e1.errno = 0 ∧
        ((∀ r ∈ stdin, r.bytes.take bufsize ≠ []) → e1.unread = []) := by
  intro stdin
  induction stdin with
  | nil => intro e _; exact ⟨_, rfl, rfl, fun _ => rfl⟩
  | cons r rest ih =>
    intro e h
    unfold read_loop
    by_cases hz : (r.bytes.take bufsize).length = 0
    · refine ⟨{ e with errno := r.err, unread := rest }, by simp only [hz, if_true],
        h r (List.mem_cons_self _ _), fun hne => ?_⟩
      exact absurd (List.length_eq_zero.mp hz) (hne r (List.mem_cons_self _ _))
    · simp only [hz, if_false]
      obtain ⟨d1, hd, _⟩ := decode_loop_terminates
        (r.bytes.take bufsize ++ e.buf.drop (r.bytes.take bufsize).length) bufsize
        (r.bytes.take bufsize).length isyms num_isyms bufsize ⟨0, e.tape, e.state, r.err⟩
        (by simp only [List.length_take]; omega)
      rw [hd]
      obtain ⟨e1, h1, h2, h3⟩ := ih ⟨_, d1.tape, d1.state, d1.errno, rest⟩
        (fun r hr => h r (List.mem_cons_of_mem _ hr))
      exact ⟨e1, h1, h2, fun hne => h3 (fun r hr => hne r (List.mem_cons_of_mem _ hr))⟩

theorem read_input_returns (S : List Nat) (bufsize : Nat) (state0 : mbstate_t) (buf : List Nat)
    (isyms : Nat → Nat) (num_isyms : Nat) :
    ∃ e, read_input (stream bufsize S) state0 buf bufsize isyms num_isyms = some (Ret.returned e) ∧
      e.errno = 0 ∧ (0 < bufsize → e.unread = []) := by
  obtain ⟨e1, h1, h2, h3⟩ := read_loop_returns bufsize isyms num_isyms (stream bufsize S)
    ⟨buf, [], state0, 0, stream bufsize S⟩ (fun r hr => (stream_chunks_mem _ _ _ _ hr).1)
  refine ⟨e1, ?_, h2, fun hb => h3 (fun r hr => (stream_chunks_mem _ _ _ _ hr).2 hb)⟩
  unfold read_input
  rw [h1]
  simp [h2]

theorem decode_iter_ascii (buf : List Nat) (bufsize : Nat) (isyms : Nat → Nat) (num_isyms : Nat)
    (off : Nat) (t : List Nat) (e : Nat) (a : Nat) (rest : List Nat)
    (hbuf : buf.drop off = a :: rest) (ha0 : 0 < a) (ha : a < 128) (hoff : off < bufsize) :
    decode_iter buf bufsize isyms num_isyms ⟨off, t, mbstate_init, e⟩ =
      ⟨off + 1, if is_isym a isyms num_isyms then t ++ [a] else t, mbstate_init, e⟩ := by
  obtain ⟨k, hk⟩ : ∃ k, bufsize - off = k + 1 := ⟨bufsize - off - 1, by omega⟩
  have hm : mbrtowc (buf.drop off) (bufsize - off) mbstate_init =
      ⟨1, some a, mbstate_init, none⟩ := by
    have ha' : ¬ a = 0 := by omega
    simp [mbrtowc, hbuf, hk, mbstate_init, utf8_decode, ha, ha']
  simp only [decode_iter, hm]
  simp

theorem decode_loop_run (buf : List Nat) (bufsize bytes : Nat) (isyms : Nat → Nat)
    (num_isyms : Nat) (a : Nat) (ha0 : 0 < a) (ha : a < 128)
    (hna : is_isym a isyms num_isyms = false) (hb : bytes ≤ bufsize) (rest : List Nat)
    (t : List Nat) (e : Nat) (fuel : Nat) (k : Nat) :
    ∀ off, buf.drop off = List.replicate k a ++ rest → off + k ≤ bytes →
      decode_loop buf bufsize bytes isyms num_isyms (fuel + k) ⟨off, t, mbstate_init, e⟩ =
        decode_loop buf bufsize bytes isyms num_isyms fuel ⟨off + k, t, mbstate_init, e⟩ := by
  induction k with
  | zero => intro off _ _; rfl
  | succ k ih =>
    intro off hbuf hle
    have hcons : buf.drop off = a :: (List.replicate k a ++ rest) := by
      rw [hbuf, List.replicate_succ, List.cons_append]
    have hnext : buf.drop (off + 1) = List.replicate k a ++ rest := by
      have := congrArg (List.drop 1) hcons
      rw [List.drop_drop] at this
      simpa [Nat.add_comm] using this
    have hlt : off < bytes := by omega
    rw [show fuel + (k + 1) = (fuel + k) + 1 by omega, decode_loop]
    simp only [hlt, if_true]
    rw [decode_iter_ascii buf bufsize isyms num_isyms off t e a _ hcons ha0 ha (by omega)]
    simp only [hna, Bool.false_eq_true, if_false]
    rw [ih (off + 1) hnext (by omega)]
    rw [show off + 1 + k = off + (k + 1) by omega]

theorem stream_single (bufsize : Nat) (S : List Nat) (hS : S ≠ []) (hl : S.length ≤ bufsize) :
    stream bufsize S = [⟨S, 0⟩] := by
  unfold stream
  obtain ⟨k, hk⟩ : ∃ k, S.length = k + 1 :=
    ⟨S.length - 1, by have := List.length_pos.mpr hS; omega⟩
  rw [hk, stream_chunks]
  simp only [hS, if_false]
  rw [List.take_of_length_le hl, List.drop_of_length_le hl]
  cases k <;> simp [stream_chunks]

theorem read_loop_cons (bufsize : Nat) (isyms : Nat → Nat) (num_isyms : Nat) (fuel : Nat)
    (c : List Nat) (err : Nat) (rest : List Fread) (buf t : List Nat) (st : mbstate_t)
    (e0 : Nat) (unread : List Fread) (d : Dec) (hc : c ≠ []) (hl : c.length ≤ bufsize)
    (hd : decode_loop (c ++ buf.drop c.length) bufsize c.length isyms num_isyms fuel
      ⟨0, t, st, err⟩ = some d) :
    read_loop bufsize isyms num_isyms fuel (⟨c, err⟩ :: rest) ⟨buf, t, st, e0, unread⟩ =
      read_loop bufsize isyms num_isyms fuel rest
        ⟨c ++ buf.drop c.length, d.tape, d.state, d.errno, rest⟩ := by
  have hne : ¬ c.length = 0 := fun h => hc (List.length_eq_zero.mp h)
  rw [read_loop]
  simp only [List.take_of_length_le hl, hne, if_false, hd]

theorem decode_loop_step (buf : List Nat) (bufsize bytes : Nat) (isyms : Nat → Nat)
    (num_isyms : Nat) (fuel : Nat) (d : Dec) (h : d.offset < bytes) :
    decode_loop buf bufsize bytes isyms num_isyms (fuel + 1) d =
      decode_loop buf bufsize bytes isyms num_isyms fuel
        (decode_iter buf bufsize isyms num_isyms d) := by
  rw [decode_loop]; simp only [h, if_true]

theorem decode_loop_done (buf : List Nat) (bufsize bytes : Nat) (isyms : Nat → Nat)
    (num_isyms : Nat) (fuel : Nat) (d : Dec) (h : bytes ≤ d.offset) :
    decode_loop buf bufsize bytes isyms num_isyms fuel d = some d := by
  have h1 : ¬ d.offset < bytes := by omega
  cases fuel <;> simp only [decode_loop, h1, if_false]

theorem decode_loop_last (buf : List Nat) (bufsize bytes : Nat) (isyms : Nat → Nat)
    (num_isyms : Nat) (fuel : Nat) (d : Dec) (hf : 0 < fuel) (h : d.offset < bytes)
    (h1 : bytes ≤ (decode_iter buf bufsize isyms num_isyms d).offset) :
    decode_loop buf bufsize bytes isyms num_isyms fuel d =
      some (decode_iter buf bufsize isyms num_isyms d) := by
  obtain ⟨j, rfl⟩ : ∃ j, fuel = j + 1 := ⟨fuel - 1, by omega⟩
  rw [decode_loop_step _ _ _ _ _ _ _ h, decode_loop_done _ _ _ _ _ _ _ h1]

theorem decode_iter_complete (buf : List Nat) (bufsize : Nat) (isyms : Nat → Nat)
    (num_isyms : Nat) (off : Nat) (t : List Nat) (st : mbstate_t) (e : Nat) (wc len : Nat)
    (hdec : utf8_decode (st.pending ++ (buf.drop off).take (bufsize - off)) =
      Decoded.complete wc len)
    (hlen : st.pending.length < len) (hwc : wc ≠ 0) :
    decode_iter buf bufsize isyms num_isyms ⟨off, t, st, e⟩ =
      ⟨off + (len - st.pending.length), if is_isym wc isyms num_isyms then t ++ [wc] else t,
        mbstate_init, e⟩ := by
  have h1 : ¬ len ≤ st.pending.length := by omega
  have h2 : 0 < len - st.pending.length := by omega
  simp [decode_iter, mbrtowc, hdec, h1, hwc, h2]

theorem decode_iter_incomplete (buf : List Nat) (bufsize : Nat) (isyms : Nat → Nat)
    (num_isyms : Nat) (off : Nat) (t : List Nat) (st : mbstate_t) (e : Nat)
    (hdec : utf8_decode (st.pending ++ (buf.drop off).take (bufsize - off)) =
      Decoded.incomplete) :
    decode_iter buf bufsize isyms num_isyms ⟨off, t, st, e⟩ =
      ⟨off + 1, t, ⟨st.pending ++ (buf.drop off).take (bufsize - off)⟩, e⟩ := by
  simp [decode_iter, mbrtowc, hdec]

theorem decode_iter_invalid (buf : List Nat) (bufsize : Nat) (isyms : Nat → Nat)
    (num_isyms : Nat) (off : Nat) (t : List Nat) (st : mbstate_t) (e : Nat)
    (hdec : utf8_decode (st.pending ++ (buf.drop off).take (bufsize - off)) =
      Decoded.invalid) :
    decode_iter buf bufsize isyms num_isyms ⟨off, t, st, e⟩ =
      ⟨off + 1, t, mbstate_init, EILSEQ⟩ := by
  simp [decode_iter, mbrtowc, hdec]

theorem stream_chunks_fuel (bufsize : Nat) (hb : 0 < bufsize) (f1 : Nat) :
    ∀ (f2 : Nat) (S : List Nat), S.length ≤ f1 → S.length ≤ f2 →
      stream_chunks bufsize f1 S = stream_chunks bufsize f2 S := by
  induction f1 with
  | zero =>
    intro f2 S h1 _
    have : S = [] := List.length_eq_zero.mp (by omega)
    subst this
    cases f2 <;> simp [stream_chunks]
  | succ k ih =>
    intro f2 S h1 h2
    by_cases hS : S = []
    · subst hS
      cases f2 <;> simp [stream_chunks]
    · have hpos : 0 < S.length := List.length_pos.mpr hS
      obtain ⟨j, rfl⟩ : ∃ j, f2 = j + 1 := ⟨f2 - 1, by omega⟩
      simp only [stream_chunks, hS, if_false]
      rw [ih j (S.drop bufsize) (by rw [List.length_drop]; omega)
        (by rw [List.length_drop]; omega)]

theorem stream_cons (bufsize : Nat) (c rest : List Nat) (hc : c.length = bufsize)
    (hb : 0 < bufsize) :
    stream bufsize (c ++ rest) = ⟨c, 0⟩ :: stream bufsize rest := by
  have hne : c ++ rest ≠ [] := by
    intro h
    have := congrArg List.length h
    simp only [List.length_append, List.length_nil] at this
    omega
  unfold stream
  obtain ⟨j, hj⟩ : ∃ j, (c ++ rest).length = j + 1 :=
    ⟨(c ++ rest).length - 1, by have := List.length_pos.mpr hne; omega⟩
  rw [hj, stream_chunks]
  simp only [hne, if_false]
  rw [List.take_left' hc, List.drop_left' hc]
  rw [stream_chunks_fuel bufsize hb j rest.length rest
    (by simp only [List.length_append] at hj; omega) (Nat.le_refl _)]

theorem spec_decode_run (a : Nat) (ha0 : 0 < a) (ha : a < 128) (rest : List Nat) (fuel : Nat)
    (k : Nat) :
    spec_decode (fuel + k) (List.replicate k a ++ rest) =
      List.replicate k a ++ spec_decode fuel rest := by
  induction k with
  | zero => simp
  | succ k ih =>
    have hw : ¬ a = 0 := by omega
    rw [show fuel + (k + 1) = (fuel + k) + 1 by omega, List.replicate_succ, List.cons_append,
      spec_decode]
    simp only [utf8_decode, ha, if_true, hw, if_false, List.drop_succ_cons, List.drop_zero]
    rw [ih]
    rfl

theorem filter_replicate_false (p : Nat → Bool) (a : Nat) (k : Nat) (h : p a = false) :
    (List.replicate k a).filter p = [] := by
  induction k with
  | zero => rfl
  | succ k ih => rw [List.replicate_succ, List.filter_cons_of_neg (by simp [h]), ih]

theorem not_pair_infix (x y z : Nat) (L : List Nat) (hx : x ∉ L) (hyz : y ≠ z) :
    ¬ ([x, y] <:+: L ++ [z]) := by
  rintro ⟨s, t, h⟩
  have h1 : (s ++ [x]) ++ (y :: t) = L ++ [z] := by simpa using h
  rcases List.append_eq_append_iff.mp h1 with ⟨a, ha, _⟩ | ⟨c, hc, hz⟩
  · exact hx (by rw [ha]; simp)
  · cases c with
    | nil => simp at hz; exact hyz hz.1.symm
    | cons c0 c1 =>
      have := congrArg List.length hz
      simp at this

theorem mbrtowc_invalid (s : List Nat) (n : Nat) (ps : mbstate_t)
    (h : utf8_decode (ps.pending ++ s.take n) = Decoded.invalid) :
    (mbrtowc s n ps).res = -1 := by
  simp only [mbrtowc, h]

theorem mbrtowc_null (s : List Nat) (n : Nat) (ps : mbstate_t) (len : Nat)
    (h : utf8_decode (ps.pending ++ s.take n) = Decoded.complete 0 len)
    (hl : ps.pending.length < len) :
    (mbrtowc s n ps).res = 0 := by
  have h1 : ¬ len ≤ ps.pending.length := by omega
  simp only [mbrtowc, h, h1, if_false, if_true]

theorem mbrtowc_pos_iff (s : List Nat) (n : Nat) (ps : mbstate_t) :
    0 < (mbrtowc s n ps).res ↔
      ∃ wc len, utf8_decode (ps.pending ++ s.take n) = Decoded.complete wc len ∧ wc ≠ 0 ∧
        ps.pending.length < len := by
  cases hd : utf8_decode (ps.pending ++ s.take n) with
  | complete wc len =>
    by_cases hp : len ≤ ps.pending.length
    · simp only [mbrtowc, hd, hp, if_true]
      constructor
      · intro h; exact absurd h (by decide)
      · rintro ⟨wc1, len1, h1, _, h3⟩
        simp only [Decoded.complete.injEq] at h1
        omega
    · by_cases hw : wc = 0
      · simp only [mbrtowc, hd, hp, hw, if_true, if_false]
        constructor
        · intro h; exact absurd h (by decide)
        · rintro ⟨wc1, len1, h1, h2, _⟩
          simp only [Decoded.complete.injEq] at h1
          exact absurd h1.1.symm h2
      · simp only [mbrtowc, hd, hp, hw, if_false]
        constructor
        · intro _; exact ⟨wc, len, rfl, hw, by omega⟩
        · intro _; omega
  | incomplete => simp [mbrtowc, hd]
  | invalid => simp [mbrtowc, hd]

/-! ## Evaluation of `read_input` on streams with a long run of one byte -/

/-- Decode loop on a full buffer of `k` bytes `a` followed by `E2 82`: the call at
`E2` is incomplete, the call at `82` completes `E2 82 82`. -/
theorem decode_loop_fill_E2_82 (k : Nat) (isyms : Nat → Nat) (num_isyms : Nat)
    (t : List Nat) (e : Nat) (h61 : is_isym 0x61 isyms num_isyms = false) :
    decode_loop (List.replicate k 0x61 ++ [0xE2, 0x82]) (k + 2) (k + 2) isyms num_isyms (k + 2)
        ⟨0, t, mbstate_init, e⟩ =
      some ⟨k + 2, if is_isym 0x2082 isyms num_isyms then t ++ [0x2082] else t,
        mbstate_init, e⟩ := by
  have h0 : List.drop k (List.replicate k 0x61 ++ [0xE2, 0x82]) = [0xE2, 0x82] :=
    List.drop_left' (List.length_replicate _ _)
  have h1 : List.drop (k + 1) (List.replicate k 0x61 ++ [0xE2, 0x82]) = [0x82] := by
    have := congrArg (List.drop 1) h0
    rw [List.drop_drop] at this
    simpa [Nat.add_comm] using this
  have w0 : List.take (k + 2 - k) (List.drop k (List.replicate k 0x61 ++ [0xE2, 0x82])) =
      [0xE2, 0x82] := by rw [h0, show k + 2 - k = 2 by omega]; rfl
  have w1 : List.take (k + 2 - (k + 1))
      (List.drop (k + 1) (List.replicate k 0x61 ++ [0xE2, 0x82])) = [0x82] := by
    rw [h1, show k + 2 - (k + 1) = 1 by omega]; rfl
  have hrun := decode_loop_run (List.replicate k 0x61 ++ [0xE2, 0x82]) (k + 2) (k + 2) isyms
    num_isyms 0x61 (by decide) (by decide) h61 (Nat.le_refl _) [0xE2, 0x82] t e 2 k 0 rfl
    (by omega)
  rw [show (2 : Nat) + k = k + 2 by omega, Nat.zero_add] at hrun
  rw [hrun, decode_loop_step _ _ _ _ _ _ _ (by show k < k + 2; omega),
    decode_iter_incomplete _ _ _ _ _ _ _ _ (by rw [w0]; rfl), w0,
    decode_loop_step _ _ _ _ _ _ _ (by show k + 1 < k + 2; omega),
    decode_iter_complete _ _ _ _ _ _ _ _ 0x2082 3 (by rw [w1]; rfl) (by decide) (by decide),
    decode_loop_done _ _ _ _ _ _ _ (by show k + 2 ≤ k + 1 + (3 - 2); omega)]
  rfl

theorem read_input_fill_E2_82 (k : Nat) (isyms : Nat → Nat) (num_isyms : Nat) (buf : List Nat)
    (hb : buf.length = k + 2) (h61 : is_isym 0x61 isyms num_isyms = false)
    (h2082 : is_isym 0x2082 isyms num_isyms = true) :
    written (read_input (stream (k + 2) (List.replicate k 0x61 ++ [0xE2, 0x82])) mbstate_init
      buf (k + 2) isyms num_isyms) = some [0x2082] := by
  have hlen : (List.replicate k 0x61 ++ [0xE2, 0x82]).length = k + 2 := by simp
  have hne : List.replicate k 0x61 ++ [0xE2, 0x82] ≠ [] := by simp
  have hdrop : List.drop (k + 2) buf = [] := List.drop_of_length_le (by omega)
  have hd := decode_loop_fill_E2_82 k isyms num_isyms [] 0 h61
  rw [stream_single _ _ hne (Nat.le_of_eq hlen)]
  rw [read_input, read_loop_cons (k + 2) isyms num_isyms (k + 2) _ 0 [] buf [] mbstate_init 0 _ _
    hne (Nat.le_of_eq hlen) (by simpa [hlen, hdrop] using hd)]
  simp [read_loop, written, h2082]

theorem spec_tape_fill_E2_82 (k : Nat) (isyms : Nat → Nat) (num_isyms : Nat)
    (h61 : is_isym 0x61 isyms num_isyms = false) :
    spec_tape (List.replicate k 0x61 ++ [0xE2, 0x82]) isyms num_isyms = [] := by
  have hlen : (List.replicate k 0x61 ++ [0xE2, 0x82]).length = 2 + k := by simp; omega
  rw [spec_tape, decoded_scalars, hlen, spec_decode_run 0x61 (by decide) (by decide)]
  rw [show spec_decode 2 [0xE2, 0x82] = [] from rfl, List.append_nil]
  exact filter_replicate_false _ _ _ h61

/-- Chunked reading of `k` bytes `a` and `E2 82 AC` with a buffer of `k + 2` bytes:
the first chunk ends in `E2 82`, the second is the lone `AC`. -/
theorem read_input_split_euro (k : Nat) (isyms : Nat → Nat) (num_isyms : Nat) (buf : List Nat)
    (hb : buf.length = k + 2) (h61 : is_isym 0x61 isyms num_isyms = false)
    (h2082 : is_isym 0x2082 isyms num_isyms = false) :
    written (read_input (stream (k + 2) (List.replicate k 0x61 ++ [0xE2, 0x82, 0xAC]))
      mbstate_init buf (k + 2) isyms num_isyms) = some [] := by
  have hS : List.replicate k 0x61 ++ [0xE2, 0x82, 0xAC] =
      (List.replicate k 0x61 ++ [0xE2, 0x82]) ++ [0xAC] := by simp
  have hlen : (List.replicate k 0x61 ++ [0xE2, 0x82]).length = k + 2 := by simp
  have hne : List.replicate k 0x61 ++ [0xE2, 0x82] ≠ [] := by simp
  have hdrop : List.drop (k + 2) buf = [] := List.drop_of_length_le (by omega)
  have hd : decode_loop (List.replicate k 0x61 ++ [0xE2, 0x82] ++
      List.drop (List.replicate k 0x61 ++ [0xE2, 0x82]).length buf) (k + 2)
      (List.replicate k 0x61 ++ [0xE2, 0x82]).length isyms num_isyms (k + 2)
      ⟨0, [], mbstate_init, 0⟩ = some ⟨k + 2, [], mbstate_init, 0⟩ := by
    rw [hlen, hdrop, List.append_nil, decode_loop_fill_E2_82 k isyms num_isyms [] 0 h61]
    simp [h2082]
  have hi : decode_iter ([0xAC] ++ List.drop [0xAC].length
      (List.replicate k 0x61 ++ [0xE2, 0x82] ++ List.drop
        (List.replicate k 0x61 ++ [0xE2, 0x82]).length buf)) (k + 2) isyms num_isyms
      ⟨0, [], mbstate_init, 0⟩ = ⟨0 + 1, [], mbstate_init, EILSEQ⟩ :=
    decode_iter_invalid _ _ _ _ _ _ _ _ rfl
  have hd2 : decode_loop ([0xAC] ++ List.drop [0xAC].length
      (List.replicate k 0x61 ++ [0xE2, 0x82] ++ List.drop
        (List.replicate k 0x61 ++ [0xE2, 0x82]).length buf)) (k + 2) [0xAC].length
      isyms num_isyms (k + 2) ⟨0, [], mbstate_init, 0⟩ = some ⟨0 + 1, [], mbstate_init, EILSEQ⟩ := by
    rw [decode_loop_last _ _ _ _ _ _ _ (by omega) (by decide) (by rw [hi]; decide), hi]
  rw [hS, stream_cons _ _ _ hlen (by omega),
    stream_single _ [0xAC] (by simp) (by simp only [List.length_singleton]; omega)]
  rw [read_input, read_loop_cons (k + 2) isyms num_isyms (k + 2) _ 0 _ buf [] mbstate_init 0 _ _
    hne (Nat.le_of_eq hlen) hd]
  rw [read_loop_cons (k + 2) isyms num_isyms (k + 2) [0xAC] 0 [] _ [] mbstate_init 0 _ _
    (by simp) (by simp only [List.length_singleton]; omega) hd2]
  simp [read_loop, written]

/-- The same stream read in one piece into a buffer that holds it all. -/
theorem read_input_whole_euro (k m : Nat) (isyms : Nat → Nat) (num_isyms : Nat)
    (buf : List Nat) (h61 : is_isym 0x61 isyms num_isyms = false)
    (h20AC : is_isym 0x20AC isyms num_isyms = true) :
    written (read_input (stream (k + 3 + m) (List.replicate k 0x61 ++ [0xE2, 0x82, 0xAC]))
      mbstate_init buf (k + 3 + m) isyms num_isyms) = some [0x20AC] := by
  have hlen : (List.replicate k 0x61 ++ [0xE2, 0x82, 0xAC]).length = k + 3 := by simp
  have hne : List.replicate k 0x61 ++ [0xE2, 0x82, 0xAC] ≠ [] := by simp
  have hle : (List.replicate k 0x61 ++ [0xE2, 0x82, 0xAC]).length ≤ k + 3 + m := by omega
  have hw : List.take (k + 3 + m - k) (List.drop k
      (List.replicate k 0x61 ++ [0xE2, 0x82, 0xAC] ++ List.drop (k + 3) buf)) =
      0xE2 :: 0x82 :: 0xAC :: List.take m (List.drop (k + 3) buf) := by
    rw [List.append_assoc, List.drop_left' (List.length_replicate _ _),
      show k + 3 + m - k = m + 3 by omega]
    rfl
  have hd : decode_loop (List.replicate k 0x61 ++ [0xE2, 0x82, 0xAC] ++ List.drop (k + 3) buf)
      (k + 3 + m) (k + 3) isyms num_isyms (k + 3 + m) ⟨0, [], mbstate_init, 0⟩ =
      some ⟨k + 3, [0x20AC], mbstate_init, 0⟩ := by
    have hrun := decode_loop_run
      (List.replicate k 0x61 ++ [0xE2, 0x82, 0xAC] ++ List.drop (k + 3) buf) (k + 3 + m) (k + 3)
      isyms num_isyms 0x61 (by decide) (by decide) h61 (by omega)
      ([0xE2, 0x82, 0xAC] ++ List.drop (k + 3) buf) [] 0 (3 + m) k 0
      (by rw [List.append_assoc]; rfl) (by omega)
    rw [show (3 : Nat) + m + k = k + 3 + m by omega, Nat.zero_add] at hrun
    rw [hrun, show (3 : Nat) + m = (2 + m) + 1 by omega,
      decode_loop_step _ _ _ _ _ _ _ (by show k < k + 3; omega),
      decode_iter_complete _ _ _ _ _ _ _ _ 0x20AC 3 (by rw [hw]; rfl) (by decide) (by decide),
      decode_loop_done _ _ _ _ _ _ _ (by show k + 3 ≤ k + (3 - 0); omega)]
    simp [h20AC, mbstate_init]
  rw [stream_single _ _ hne hle]
  rw [read_input, read_loop_cons (k + 3 + m) isyms num_isyms (k + 3 + m) _ 0 [] buf []
    mbstate_init 0 _ _ hne hle (by simpa [hlen] using hd)]
  simp [read_loop, written]

theorem spec_tape_euro (k : Nat) (isyms : Nat → Nat) (num_isyms : Nat)
    (h61 : is_isym 0x61 isyms num_isyms = false)
    (h20AC : is_isym 0x20AC isyms num_isyms = true) :
    spec_tape (List.replicate k 0x61 ++ [0xE2, 0x82, 0xAC]) isyms num_isyms = [0x20AC] := by
  have hlen : (List.replicate k 0x61 ++ [0xE2, 0x82, 0xAC]).length = 3 + k := by simp; omega
  rw [spec_tape, decoded_scalars, hlen, spec_decode_run 0x61 (by decide) (by decide)]
  rw [show spec_decode 3 [0xE2, 0x82, 0xAC] = [0x20AC] from rfl, List.filter_append,
    filter_replicate_false (fun w => is_isym w isyms num_isyms) 0x61 k h61]
  simp [h20AC]

/-- Chunked reading of `61 A9`, `k` bytes `61` and `C3` with a buffer of `k + 2`
bytes: the second chunk is the lone `C3`, and the byte after it in the buffer is
the `A9` that the first chunk left there. -/
theorem read_input_stale_byte (k : Nat) (isyms : Nat → Nat) (num_isyms : Nat) (buf : List Nat)
    (hb : buf.length = k + 2) (h61 : is_isym 0x61 isyms num_isyms = false)
    (hE9 : is_isym 0xE9 isyms num_isyms = true) :
    written (read_input (stream (k + 2) ([0x61, 0xA9] ++ List.replicate k 0x61 ++ [0xC3]))
      mbstate_init buf (k + 2) isyms num_isyms) = some [0xE9] := by
  have hlen : ([0x61, 0xA9] ++ List.replicate k 0x61).length = k + 2 := by simp
  have hne : [0x61, 0xA9] ++ List.replicate k 0x61 ≠ [] := by simp
  have hdrop : List.drop (k + 2) buf = [] := List.drop_of_length_le (by omega)
  have hi0 : decode_iter ([0x61, 0xA9] ++ List.replicate k 0x61) (k + 2) isyms num_isyms
      ⟨0, [], mbstate_init, 0⟩ = ⟨0 + 1, [], mbstate_init, 0⟩ :=
    (decode_iter_ascii ([0x61, 0xA9] ++ List.replicate k 0x61) (k + 2) isyms num_isyms 0 [] 0
      0x61 (0xA9 :: List.replicate k 0x61) (by simp) (by decide) (by decide) (by omega)).trans
      (by simp [h61])
  have hi1 : decode_iter ([0x61, 0xA9] ++ List.replicate k 0x61) (k + 2) isyms num_isyms
      ⟨0 + 1, [], mbstate_init, 0⟩ = ⟨0 + 1 + 1, [], mbstate_init, EILSEQ⟩ :=
    decode_iter_invalid _ _ _ _ _ _ _ _
      (by rw [show k + 2 - (0 + 1) = k + 1 by omega]; rfl)
  have hrun := decode_loop_run ([0x61, 0xA9] ++ List.replicate k 0x61) (k + 2) (k + 2) isyms
    num_isyms 0x61 (by decide) (by decide) h61 (Nat.le_refl _) [] [] EILSEQ 0 k (0 + 1 + 1)
    (by simp) (by omega)
  have hd : decode_loop ([0x61, 0xA9] ++ List.replicate k 0x61 ++
      List.drop ([0x61, 0xA9] ++ List.replicate k 0x61).length buf) (k + 2)
      ([0x61, 0xA9] ++ List.replicate k 0x61).length isyms num_isyms (k + 2)
      ⟨0, [], mbstate_init, 0⟩ = some ⟨0 + 1 + 1 + k, [], mbstate_init, EILSEQ⟩ := by
    rw [hlen, hdrop, List.append_nil]
    have e : k + 2 = (0 + k) + 1 + 1 := by omega
    rw [show decode_loop ([0x61, 0xA9] ++ List.replicate k 0x61) (k + 2) (k + 2) isyms num_isyms
        (k + 2) ⟨0, [], mbstate_init, 0⟩ =
      decode_loop ([0x61, 0xA9] ++ List.replicate k 0x61) (k + 2) (k + 2) isyms num_isyms
        ((0 + k) + 1 + 1) ⟨0, [], mbstate_init, 0⟩ from by rw [← e]]
    rw [decode_loop_step _ _ _ _ _ _ _ (by show 0 < k + 2; omega), hi0,
      decode_loop_step _ _ _ _ _ _ _ (by show 0 + 1 < k + 2; omega), hi1, hrun,
      decode_loop_done _ _ _ _ _ _ _ (by show k + 2 ≤ 0 + 1 + 1 + k; omega)]
  have hi2 : decode_iter ([0xC3] ++ List.drop [0xC3].length
      ([0x61, 0xA9] ++ List.replicate k 0x61 ++ List.drop
        ([0x61, 0xA9] ++ List.replicate k 0x61).length buf)) (k + 2) isyms num_isyms
      ⟨0, [], mbstate_init, 0⟩ = ⟨0 + (2 - 0), [0xE9], mbstate_init, 0⟩ :=
    (decode_iter_complete _ _ _ _ _ _ _ _ 0xE9 2 (by rfl) (by decide) (by decide)).trans
      (by simp [hE9, mbstate_init])
  have hd2 : decode_loop ([0xC3] ++ List.drop [0xC3].length
      ([0x61, 0xA9] ++ List.replicate k 0x61 ++ List.drop
        ([0x61, 0xA9] ++ List.replicate k 0x61).length buf)) (k + 2) [0xC3].length
      isyms num_isyms (k + 2) ⟨0, [], mbstate_init, 0⟩ =
      some ⟨0 + (2 - 0), [0xE9], mbstate_init, 0⟩ := by
    rw [decode_loop_last _ _ _ _ _ _ _ (by omega) (by decide) (by rw [hi2]; decide), hi2]
  rw [stream_cons _ _ _ hlen (by omega),
    stream_single _ [0xC3] (by simp) (by simp only [List.length_singleton]; omega)]
  rw [read_input, read_loop_cons (k + 2) isyms num_isyms (k + 2) _ 0 _ buf [] mbstate_init 0 _ _
    hne (Nat.le_of_eq hlen) hd]
  rw [read_loop_cons (k + 2) isyms num_isyms (k + 2) [0xC3] 0 [] _ [] mbstate_init EILSEQ _ _
    (by simp) (by simp only [List.length_singleton]; omega) hd2]
  simp [read_loop, written]

theorem spec_tape_stale_byte (k : Nat) (isyms : Nat → Nat) (num_isyms : Nat)
    (h61 : is_isym 0x61 isyms num_isyms = false) :
    spec_tape ([0x61, 0xA9] ++ List.replicate k 0x61 ++ [0xC3]) isyms num_isyms = [] := by
  have hlen : ([0x61, 0xA9] ++ List.replicate k 0x61 ++ [0xC3]).length = (1 + k) + 1 + 1 := by
    simp; omega
  rw [spec_tape, decoded_scalars, hlen]
  rw [show [0x61, 0xA9] ++ List.replicate k 0x61 ++ [0xC3] =
    0x61 :: 0xA9 :: (List.replicate k 0x61 ++ [0xC3]) from by simp]
  rw [show spec_decode ((1 + k) + 1 + 1) (0x61 :: 0xA9 :: (List.replicate k 0x61 ++ [0xC3])) =
    0x61 :: spec_decode (1 + k) (List.replicate k 0x61 ++ [0xC3]) from rfl]
  rw [spec_decode_run 0x61 (by decide) (by decide), show spec_decode 1 [0xC3] = [] from rfl,
    List.append_nil, List.filter_cons_of_neg (by simp [h61]),
    filter_replicate_false (fun w => is_isym w isyms num_isyms) 0x61 k h61]

/-- Decode loop on a full buffer of `k` bytes `a` followed by the lead byte `C3`:
the call at `C3` is incomplete and leaves `C3` pending. -/
theorem decode_loop_fill_C3 (k : Nat) (isyms : Nat → Nat) (num_isyms : Nat)
    (t : List Nat) (e : Nat) (h61 : is_isym 0x61 isyms num_isyms = false) :
    decode_loop (List.replicate k 0x61 ++ [0xC3]) (k + 1) (k + 1) isyms num_isyms (k + 1)
        ⟨0, t, mbstate_init, e⟩ = some ⟨k + 1, t, ⟨[0xC3]⟩, e⟩ := by
  have h0 : List.drop k (List.replicate k 0x61 ++ [0xC3]) = [0xC3] :=
    List.drop_left' (List.length_replicate _ _)
  have w0 : List.take (k + 1 - k) (List.drop k (List.replicate k 0x61 ++ [0xC3])) = [0xC3] := by
    rw [h0, show k + 1 - k = 1 by omega]; rfl
  have hrun := decode_loop_run (List.replicate k 0x61 ++ [0xC3]) (k + 1) (k + 1) isyms
    num_isyms 0x61 (by decide) (by decide) h61 (Nat.le_refl _) [0xC3] t e 1 k 0 rfl (by omega)
  rw [show (1 : Nat) + k = k + 1 by omega, Nat.zero_add] at hrun
  have hi : decode_iter (List.replicate k 0x61 ++ [0xC3]) (k + 1) isyms num_isyms
      ⟨k, t, mbstate_init, e⟩ = ⟨k + 1, t, ⟨[0xC3]⟩, e⟩ :=
    (decode_iter_incomplete _ _ _ _ _ _ _ _ (by rw [w0]; rfl)).trans (by rw [w0]; rfl)
  rw [hrun, decode_loop_last _ _ _ _ _ _ _ (by decide) (by show k < k + 1; omega)
    (by rw [hi]), hi]

/-- First pass of the decode loop on the chunk `A9` that follows: `C3` is pending,
one byte is taken and `U+00E9` is complete. -/
theorem decode_iter_pending_C3 (bufsize : Nat) (isyms : Nat → Nat) (num_isyms : Nat)
    (rest t : List Nat) (e : Nat) (hb : 0 < bufsize) :
    decode_iter (0xA9 :: rest) bufsize isyms num_isyms ⟨0, t, ⟨[0xC3]⟩, e⟩ =
      ⟨1, if is_isym 0xE9 isyms num_isyms then t ++ [0xE9] else t, mbstate_init, e⟩ := by
  obtain ⟨j, rfl⟩ : ∃ j, bufsize = j + 1 := ⟨bufsize - 1, by omega⟩
  exact decode_iter_complete _ _ _ _ _ _ _ _ 0xE9 2 (by rfl) (by decide) (by decide)

theorem read_input_split_C3_A9 (k : Nat) (isyms : Nat → Nat) (num_isyms : Nat) (buf : List Nat)
    (hb : buf.length = k + 1) (h61 : is_isym 0x61 isyms num_isyms = false)
    (hE9 : is_isym 0xE9 isyms num_isyms = true) :
    written (read_input (stream (k + 1) (List.replicate k 0x61 ++ [0xC3, 0xA9]))
      mbstate_init buf (k + 1) isyms num_isyms) = some [0xE9] := by
  have hS : List.replicate k 0x61 ++ [0xC3, 0xA9] =
      (List.replicate k 0x61 ++ [0xC3]) ++ [0xA9] := by simp
  have hlen : (List.replicate k 0x61 ++ [0xC3]).length = k + 1 := by simp
  have hne : List.replicate k 0x61 ++ [0xC3] ≠ [] := by simp
  have hdrop : List.drop (k + 1) buf = [] := List.drop_of_length_le (by omega)
  have hd : decode_loop (List.replicate k 0x61 ++ [0xC3] ++
      List.drop (List.replicate k 0x61 ++ [0xC3]).length buf) (k + 1)
      (List.replicate k 0x61 ++ [0xC3]).length isyms num_isyms (k + 1)
      ⟨0, [], mbstate_init, 0⟩ = some ⟨k + 1, [], ⟨[0xC3]⟩, 0⟩ := by
    rw [hlen, hdrop, List.append_nil, decode_loop_fill_C3 k isyms num_isyms [] 0 h61]
  have hi : decode_iter ([0xA9] ++ List.drop [0xA9].length
      (List.replicate k 0x61 ++ [0xC3] ++ List.drop
        (List.replicate k 0x61 ++ [0xC3]).length buf)) (k + 1) isyms num_isyms
      ⟨0, [], ⟨[0xC3]⟩, 0⟩ = ⟨1, [0xE9], mbstate_init, 0⟩ :=
    (decode_iter_pending_C3 (k + 1) isyms num_isyms _ [] 0 (by omega)).trans (by simp [hE9])
  have hd2 : decode_loop ([0xA9] ++ List.drop [0xA9].length
      (List.replicate k 0x61 ++ [0xC3] ++ List.drop
        (List.replicate k 0x61 ++ [0xC3]).length buf)) (k + 1) [0xA9].length
      isyms num_isyms (k + 1) ⟨0, [], ⟨[0xC3]⟩, 0⟩ = some ⟨1, [0xE9], mbstate_init, 0⟩ := by
    rw [decode_loop_last _ _ _ _ _ _ _ (by omega) (by decide) (by rw [hi]; decide), hi]
  rw [hS, stream_cons _ _ _ hlen (by omega),
    stream_single _ [0xA9] (by simp) (by simp only [List.length_singleton]; omega)]
  rw [read_input, read_loop_cons (k + 1) isyms num_isyms (k + 1) _ 0 _ buf [] mbstate_init 0 _ _
    hne (Nat.le_of_eq hlen) hd]
  rw [read_loop_cons (k + 1) isyms num_isyms (k + 1) [0xA9] 0 [] _ [] ⟨[0xC3]⟩ 0 _ _
    (by simp) (by simp only [List.length_singleton]; omega) hd2]
  simp [read_loop, written]

/-! ## The claims on `read_input` -/

/-- C1 (fails on the code). Standard input holds 8190 bytes `a`, then `E2 82`:
one full chunk. The specification's decoding finds no scalar of the alphabet
`{U+2082}` in it, so it puts nothing on the tape. `read_input` stores `U+2082`: the
call of `mbrtowc` at `E2` has only two bytes left, takes both into the state and
returns `-2`; the code skips one byte and the call at `82` completes `E2 82 82`. -/
theorem read_input_fabricates_scalar :
    written (read_input (stream STDIN_BUFSIZE (List.replicate 8190 0x61 ++ [0xE2, 0x82]))
        mbstate_init (List.replicate STDIN_BUFSIZE 0) STDIN_BUFSIZE (fun _ => 0x2082) 1) =
      some [0x2082] ∧
    spec_tape (List.replicate 8190 0x61 ++ [0xE2, 0x82]) (fun _ => 0x2082) 1 = [] :=
  ⟨read_input_fill_E2_82 8190 _ 1 _ (List.length_replicate _ _) (by decide) (by decide),
    spec_tape_fill_E2_82 8190 _ 1 (by decide)⟩

/-- C2 (fails on the code). Standard input holds 8190 bytes `a`, then `E2 82 AC`
(the scalar `U+20AC`), the alphabet is `{U+20AC}`. Read in chunks of 8192 bytes the
scalar straddles the chunk boundary and `read_input` stores nothing; read in one
piece into a buffer of 16384 bytes the same code stores `U+20AC`, as the
specification's decoding of the whole sequence does. -/
theorem read_input_loses_straddling_scalar :
    written (read_input (stream STDIN_BUFSIZE (List.replicate 8190 0x61 ++ [0xE2, 0x82, 0xAC]))
        mbstate_init (List.replicate STDIN_BUFSIZE 0) STDIN_BUFSIZE (fun _ => 0x20AC) 1) =
      some [] ∧
    written (read_input (stream 16384 (List.replicate 8190 0x61 ++ [0xE2, 0x82, 0xAC]))
        mbstate_init (List.replicate 16384 0) 16384 (fun _ => 0x20AC) 1) = some [0x20AC] ∧
    spec_tape (List.replicate 8190 0x61 ++ [0xE2, 0x82, 0xAC]) (fun _ => 0x20AC) 1 = [0x20AC] :=
  ⟨read_input_split_euro 8190 _ 1 _ (List.length_replicate _ _) (by decide) (by decide),
    read_input_whole_euro 8190 8191 _ 1 _ (by decide) (by decide),
    spec_tape_euro 8190 _ 1 (by decide) (by decide)⟩

/-- C3 (fails on the code). Standard input holds `61 A9`, 8190 bytes `61`, then
`C3`: a full chunk and a chunk of one byte. `read_input` stores `U+00E9`, decoded
from the `C3` of the second chunk and the `A9` that the first chunk left at index
`1` of the buffer, although `C3 A9` occurs nowhere in the stream and the
specification's decoding puts nothing on the tape. -/
theorem read_input_decodes_stale_byte :
    written (read_input
        (stream STDIN_BUFSIZE ([0x61, 0xA9] ++ List.replicate 8190 0x61 ++ [0xC3]))
        mbstate_init (List.replicate STDIN_BUFSIZE 0) STDIN_BUFSIZE (fun _ => 0xE9) 1) =
      some [0xE9] ∧
    ¬ (utf8_encode 0xE9 <:+: [0x61, 0xA9] ++ List.replicate 8190 0x61 ++ [0xC3]) ∧
    spec_tape ([0x61, 0xA9] ++ List.replicate 8190 0x61 ++ [0xC3]) (fun _ => 0xE9) 1 = [] :=
  ⟨read_input_stale_byte 8190 _ 1 _ (List.length_replicate _ _) (by decide) (by decide),
    not_pair_infix 0xC3 0xA9 0xC3 _
      (by simp only [List.mem_append, List.mem_cons, List.mem_replicate, List.mem_singleton,
            List.not_mem_nil]; decide) (by decide),
    spec_tape_stale_byte 8190 _ 1 (by decide)⟩

/-- C4 (as stated, fails). Standard input holds 8191 bytes `a`, then `C3 A9` (the
scalar `U+00E9`): the lead byte is the last byte of the first chunk. The run stores
`U+00E9`. The decode loop of the first chunk ends with `C3` pending in the state;
the first pass on the second chunk succeeds with `U+00E9`, a scalar of two bytes,
and advances the offset by one, the byte `A9`. -/
theorem decode_iter_advances_by_rest_of_scalar :
    written (read_input (stream STDIN_BUFSIZE (List.replicate 8191 0x61 ++ [0xC3, 0xA9]))
        mbstate_init (List.replicate STDIN_BUFSIZE 0) STDIN_BUFSIZE (fun _ => 0xE9) 1) =
      some [0xE9] ∧
    decode_loop (List.replicate 8191 0x61 ++ [0xC3]) STDIN_BUFSIZE STDIN_BUFSIZE (fun _ => 0xE9) 1
        STDIN_BUFSIZE ⟨0, [], mbstate_init, 0⟩ = some ⟨STDIN_BUFSIZE, [], ⟨[0xC3]⟩, 0⟩ ∧
    decode_iter (0xA9 :: List.replicate 8190 0x61 ++ [0xC3]) STDIN_BUFSIZE (fun _ => 0xE9) 1
        ⟨0, [], ⟨[0xC3]⟩, 0⟩ = ⟨0 + 1, [0xE9], mbstate_init, 0⟩ ∧
    (utf8_encode 0xE9).length = 2 :=
  ⟨read_input_split_C3_A9 8191 _ 1 _ (List.length_replicate _ _) (by decide) (by decide),
    decode_loop_fill_C3 8191 _ 1 [] 0 (by decide),
    (decode_iter_pending_C3 STDIN_BUFSIZE _ 1 _ [] 0 (by decide)).trans (by decide),
    by decide⟩

/-- C4 (amended). One pass of the decode loop, for every buffer, offset and
conversion state. When decoding at the offset fails with an encoding error
(`mbrtowc` returns `-1`, as it does on an invalid sequence) or yields the null
scalar (it returns `0`), the offset advances by one, nothing is stored on the
tape, and the next pass decodes at the new offset. Decoding succeeds exactly when
a well-formed sequence of a non-null scalar is completed at the offset; the offset
then advances by the number of bytes taken there, the bytes pending in the state
followed by the bytes taken are the encoding of the scalar, and the scalar is
stored if and only if it is in the alphabet; with no bytes pending the advance is
the number of bytes the scalar occupies, and these are the bytes at the offset.
Witness of the claim, for a run that starts in the initial conversion state: with
the alphabet `{'0', '1'}` the stream `1011bad\xFF01` gives the tape `1,0,1,1,0,1`. -/
theorem decode_iter_advance (buf : List Nat) (bufsize : Nat) (isyms : Nat → Nat)
    (num_isyms : Nat) (d : Dec) :
    (utf8_decode (d.state.pending ++ (buf.drop d.offset).take (bufsize - d.offset)) =
        Decoded.invalid →
      (mbrtowc (buf.drop d.offset) (bufsize - d.offset) d.state).res = -1) ∧
    (∀ len : Nat,
      utf8_decode (d.state.pending ++ (buf.drop d.offset).take (bufsize - d.offset)) =
        Decoded.complete 0 len →
      d.state.pending.length < len →
      (mbrtowc (buf.drop d.offset) (bufsize - d.offset) d.state).res = 0) ∧
    ((mbrtowc (buf.drop d.offset) (bufsize - d.offset) d.state).res = -1 ∨
        (mbrtowc (buf.drop d.offset) (bufsize - d.offset) d.state).res = 0 →
      (decode_iter buf bufsize isyms num_isyms d).offset = d.offset + 1 ∧
      (decode_iter buf bufsize isyms num_isyms d).tape = d.tape) ∧
    (∀ bytes fuel : Nat, d.offset < bytes →
      decode_loop buf bufsize bytes isyms num_isyms (fuel + 1) d =
        decode_loop buf bufsize bytes isyms num_isyms fuel
          (decode_iter buf bufsize isyms num_isyms d)) ∧
    (0 < (mbrtowc (buf.drop d.offset) (bufsize - d.offset) d.state).res ↔
      ∃ wc len, utf8_decode (d.state.pending ++ (buf.drop d.offset).take (bufsize - d.offset)) =
        Decoded.complete wc len ∧ wc ≠ 0 ∧ d.state.pending.length < len) ∧
    (0 < (mbrtowc (buf.drop d.offset) (bufsize - d.offset) d.state).res →
      ∃ wc, (mbrtowc (buf.drop d.offset) (bufsize - d.offset) d.state).wc = some wc ∧ wc ≠ 0 ∧
        d.state.pending ++ (buf.drop d.offset).take
          (mbrtowc (buf.drop d.offset) (bufsize - d.offset) d.state).res.toNat = utf8_encode wc ∧
        (decode_iter buf bufsize isyms num_isyms d).offset =
          d.offset + (mbrtowc (buf.drop d.offset) (bufsize - d.offset) d.state).res.toNat ∧
        (decode_iter buf bufsize isyms num_isyms d).tape =
          (if is_isym wc isyms num_isyms then d.tape ++ [wc] else d.tape) ∧
        (d.state.pending = [] →
          (decode_iter buf bufsize isyms num_isyms d).offset =
            d.offset + (utf8_encode wc).length ∧
          (buf.drop d.offset).take (utf8_encode wc).length = utf8_encode wc)) ∧
    written (read_input
        (stream STDIN_BUFSIZE [0x31, 0x30, 0x31, 0x31, 0x62, 0x61, 0x64, 0xFF, 0x30, 0x31])
        mbstate_init (List.replicate STDIN_BUFSIZE 0) STDIN_BUFSIZE
        (fun i => [0x30, 0x31].getD i 0) 2) = some [0x31, 0x30, 0x31, 0x31, 0x30, 0x31] := by
  refine ⟨mbrtowc_invalid _ _ _, fun len h hl => mbrtowc_null _ _ _ len h hl, ?_,
    fun bytes fuel h => decode_loop_step buf bufsize bytes isyms num_isyms fuel d h,
    mbrtowc_pos_iff _ _ _, ?_, ?_⟩
  · intro h
    have h1 : ¬ 0 < (mbrtowc (buf.drop d.offset) (bufsize - d.offset) d.state).res := by omega
    simp only [decode_iter, h1, if_false, and_self]
  · intro h
    rcases mbrtowc_res (buf.drop d.offset) (bufsize - d.offset) d.state with h0 | h0
    · omega
    · obtain ⟨_, _, _, hlen, _, _, wc, hwc, hne, henc⟩ := h0
      have hoff : (decode_iter buf bufsize isyms num_isyms d).offset =
          d.offset + (mbrtowc (buf.drop d.offset) (bufsize - d.offset) d.state).res.toNat := by
        simp only [decode_iter, h, if_true]
      refine ⟨wc, hwc, hne, henc, hoff, ?_, ?_⟩
      · simp only [decode_iter, h, if_true, hwc, Option.getD_some]
      · intro hp
        rw [hp, List.nil_append] at henc
        have hl := congrArg List.length henc
        rw [List.length_take, Nat.min_eq_left hlen] at hl
        rw [hoff, hl]
        exact ⟨rfl, by rw [← hl]; exact henc⟩
  · set_option maxRecDepth 100000 in decide

/-- Witness of `decode_iter_advance`: at the invalid byte `FF` of the buffer `FF 31`
`mbrtowc` returns `-1`, the offset goes from `0` to `1` and the tape stays empty; at
the byte `31`, with nothing pending, decoding succeeds and the offset advances by
the one byte that `'1'` occupies. -/
theorem decode_iter_advance_witness :
    ((mbrtowc (List.drop 0 [0xFF, 0x31]) (2 - 0) mbstate_init).res = -1 ∧
      (decode_iter [0xFF, 0x31] 2 (fun _ => 0x31) 1 ⟨0, [], mbstate_init, 0⟩).offset = 0 + 1 ∧
      (decode_iter [0xFF, 0x31] 2 (fun _ => 0x31) 1 ⟨0, [], mbstate_init, 0⟩).tape = []) ∧
    (0 < (mbrtowc (List.drop 1 [0xFF, 0x31]) (2 - 1) mbstate_init).res ∧
      ∃ wc, (mbrtowc (List.drop 1 [0xFF, 0x31]) (2 - 1) mbstate_init).wc = some wc ∧ wc ≠ 0 ∧
        mbstate_init.pending ++ (List.drop 1 [0xFF, 0x31]).take
          (mbrtowc (List.drop 1 [0xFF, 0x31]) (2 - 1) mbstate_init).res.toNat = utf8_encode wc ∧
        (decode_iter [0xFF, 0x31] 2 (fun _ => 0x31) 1 ⟨1, [], mbstate_init, 0⟩).offset =
          1 + (mbrtowc (List.drop 1 [0xFF, 0x31]) (2 - 1) mbstate_init).res.toNat ∧
        (decode_iter [0xFF, 0x31] 2 (fun _ => 0x31) 1 ⟨1, [], mbstate_init, 0⟩).tape =
          (if is_isym wc (fun _ => 0x31) 1 then [] ++ [wc] else []) ∧
        (mbstate_init.pending = [] →
          (decode_iter [0xFF, 0x31] 2 (fun _ => 0x31) 1 ⟨1, [], mbstate_init, 0⟩).offset =
            1 + (utf8_encode wc).length ∧
          (List.drop 1 [0xFF, 0x31]).take (utf8_encode wc).length = utf8_encode wc)) :=
  ⟨⟨by decide, (decode_iter_advance [0xFF, 0x31] 2 (fun _ => 0x31) 1
      ⟨0, [], mbstate_init, 0⟩).2.2.1 (Or.inl (by decide))⟩,
    by decide, (decode_iter_advance [0xFF, 0x31] 2 (fun _ => 0x31) 1
      ⟨1, [], mbstate_init, 0⟩).2.2.2.2.2.1 (by decide)⟩

/-- C5. For every finite byte stream read without error, with any bytes in it,
`read_input` returns to its caller: it does not take the `exit` after the loop
(`errno` is `0` there), it has made every read of the stream, and the reads
delivered exactly the bytes of the stream. Each pass of the decode loop increases
the offset, so a decode loop over `bytes` bytes ends within `bytes` passes. -/
theorem read_input_terminates (S : List Nat) (bufsize : Nat) (hb : 0 < bufsize)
    (state0 : mbstate_t) (buf : List Nat) (isyms : Nat → Nat) (num_isyms : Nat) :
    (∃ e, read_input (stream bufsize S) state0 buf bufsize isyms num_isyms =
        some (Ret.returned e) ∧ e.errno = 0 ∧ e.unread = []) ∧
    ((stream bufsize S).map Fread.bytes).flatten = S ∧
    (∀ (b : List Nat) (d : Dec), d.offset < (decode_iter b bufsize isyms num_isyms d).offset) ∧
    (∀ (b : List Nat) (bytes fuel : Nat) (d : Dec), bytes ≤ d.offset + fuel →
      ∃ d1, decode_loop b bufsize bytes isyms num_isyms fuel d = some d1 ∧
        bytes ≤ d1.offset) := by
  obtain ⟨e, h1, h2, h3⟩ := read_input_returns S bufsize state0 buf isyms num_isyms
  exact ⟨⟨e, h1, h2, h3 hb⟩, stream_chunks_join bufsize hb _ S (Nat.le_refl _),
    fun b d => decode_iter_offset_lt b bufsize isyms num_isyms d,
    fun b bytes fuel d h => decode_loop_terminates b bufsize bytes isyms num_isyms fuel d h⟩

/-- Witness of `read_input_terminates`: the stream `1011bad\xFF01`, with its invalid
byte, and the buffer of `tm_run`. -/
theorem read_input_terminates_witness :
    0 < STDIN_BUFSIZE ∧
      ∃ e, read_input
          (stream STDIN_BUFSIZE [0x31, 0x30, 0x31, 0x31, 0x62, 0x61, 0x64, 0xFF, 0x30, 0x31])
          mbstate_init (List.replicate STDIN_BUFSIZE 0) STDIN_BUFSIZE
          (fun i => [0x30, 0x31].getD i 0) 2 = some (Ret.returned e) ∧
        e.errno = 0 ∧ e.unread = [] :=
  ⟨by decide, (read_input_terminates _ STDIN_BUFSIZE (by decide) _ _ _ _).1⟩

/-! ## Lemmas on the output scan and the tape memory -/

theorem is_isym_zero (which : Nat) (isyms : Nat → Nat) : is_isym which isyms 0 = false := rfl

theorem write_output_stop (tape : Tape) (isyms : Nat → Nat) (num_isyms : Nat) (fuel : Nat)
    (p : Int) (h : is_isym (tape p) isyms num_isyms = false) :
    write_output tape isyms num_isyms fuel p = some [] := by
  cases fuel <;> simp [write_output, h]

theorem write_output_scan (tape : Tape) (isyms : Nat → Nat) (num_isyms : Nat) (k : Nat) :
    ∀ (fuel : Nat) (p : Int), k ≤ fuel →
      (∀ j : Nat, j < k → is_isym (tape (p + j)) isyms num_isyms = true) →
      is_isym (tape (p + k)) isyms num_isyms = false →
      write_output tape isyms num_isyms fuel p =
        some ((List.range k).map (fun j : Nat => symbol_line (tape (p + j)))) := by
  induction k with
  | zero =>
    intro fuel p _ _ hk
    rw [write_output_stop tape isyms num_isyms fuel p (by simpa using hk)]
    rfl
  | succ k ih =>
    intro fuel p hf hmem hk
    obtain ⟨f, rfl⟩ : ∃ f, fuel = f + 1 := ⟨fuel - 1, by omega⟩
    have h0 : is_isym (tape p) isyms num_isyms = true := by simpa using hmem 0 (by omega)
    have ih1 := ih f (p + 1) (by omega)
      (fun j hj => by
        have := hmem (j + 1) (by omega)
        rw [show p + 1 + (j : Int) = p + ((j + 1 : Nat) : Int) by push_cast; ring]
        exact this)
      (by
        rw [show p + 1 + (k : Int) = p + ((k + 1 : Nat) : Int) by push_cast; ring]
        exact hk)
    rw [write_output]
    simp only [h0, if_true, ih1, Option.map_some', List.range_succ_eq_map, List.map_cons,
      List.map_map]
    congr 2
    · simp
    · apply List.map_congr_left
      intro j _
      simp only [Function.comp]
      rw [show p + 1 + (j : Int) = p + ((j + 1 : Nat) : Int) by push_cast; ring]

theorem getD_of_all_zero (l : List Nat) (i : Nat) (h : ∀ x ∈ l, x = 0) : l.getD i 0 = 0 := by
  rw [List.getD_eq_getElem?_getD]
  cases hi : l[i]? with
  | none => rfl
  | some x => exact h x (List.getElem?_mem hi)

theorem memset_getD_zero (buf : List Nat) (n idx : Nat) (h : idx < n) :
    (memset buf 0 n).getD idx 0 = 0 := by
  unfold memset
  by_cases hl : n ≤ buf.length
  · rw [Nat.min_eq_left hl, List.getD_append _ _ _ _ (by rw [List.length_replicate]; exact h)]
    exact getD_of_all_zero _ _ (fun x hx => (List.mem_replicate.mp hx).2)
  · rw [List.drop_of_length_le (by omega), List.append_nil]
    exact getD_of_all_zero _ _ (fun x hx => (List.mem_replicate.mp hx).2)

theorem cell_at_memset (buf : List Nat) (j : Nat) (hj : j < STDIN_BUFSIZE / CELL_BYTES) :
    cell_at (memset buf 0 STDIN_BUFSIZE) j = 0 := by
  have hj' : j < 2048 := hj
  unfold cell_at
  rw [memset_getD_zero _ _ _ (by show 4 * j < 8192; omega),
    memset_getD_zero _ _ _ (by show 4 * j + 1 < 8192; omega),
    memset_getD_zero _ _ _ (by show 4 * j + 2 < 8192; omega),
    memset_getD_zero _ _ _ (by show 4 * j + 3 < 8192; omega)]

theorem cell_at_zeros (n j : Nat) : cell_at (List.replicate n 0) j = 0 := by
  unfold cell_at
  simp only [getD_of_all_zero _ _ (fun x hx => (List.mem_replicate.mp hx).2)]

theorem tape_memory_cells (buf cells : List Nat) (i : Nat) (hi : i < cells.length) :
    cells[i]? = some (tape_memory buf cells (i : Int)) := by
  have h0 : (0 : Int) ≤ (i : Int) := Int.ofNat_nonneg i
  simp only [tape_memory, h0, if_true, Int.toNat_ofNat]
  rw [List.getD_eq_getElem?_getD, List.getElem?_eq_getElem hi]
  rfl

theorem tape_memory_right (buf cells : List Nat) (i : Int) (hi : (cells.length : Int) ≤ i) :
    tape_memory buf cells i = 0 := by
  have h0 : (0 : Int) ≤ i := le_trans (Int.ofNat_nonneg _) hi
  simp only [tape_memory, h0, if_true]
  rw [List.getD_eq_getElem?_getD, List.getElem?_eq_none (by omega)]
  rfl

theorem tape_memory_left (buf cells : List Nat) (i : Int) (hi : i < 0) :
    tape_memory (memset buf 0 STDIN_BUFSIZE) cells i = 0 := by
  have h0 : ¬ (0 : Int) ≤ i := by omega
  simp only [tape_memory, h0, if_false]
  split
  · rename_i h1
    apply cell_at_memset
    have : ((STDIN_BUFSIZE / CELL_BYTES : Nat) : Int) = 2048 := rfl
    show (i + ((STDIN_BUFSIZE / CELL_BYTES : Nat) : Int)).toNat < 2048
    omega
  · rfl

theorem decode_iter_tape_le (buf : List Nat) (bufsize : Nat) (isyms : Nat → Nat)
    (num_isyms : Nat) (d : Dec) :
    (decode_iter buf bufsize isyms num_isyms d).tape.length ≤ d.tape.length + 1 := by
  unfold decode_iter
  simp only
  split
  · split <;> simp
  · simp

theorem decode_loop_tape_le (buf : List Nat) (bufsize bytes : Nat) (isyms : Nat → Nat)
    (num_isyms : Nat) (fuel : Nat) :
    ∀ d d1 : Dec, decode_loop buf bufsize bytes isyms num_isyms fuel d = some d1 →
      d1.tape.length ≤ d.tape.length + (bytes - d.offset) := by
  induction fuel with
  | zero =>
    intro d d1 h
    unfold decode_loop at h
    split at h
    · simp at h
    · simp only [Option.some.injEq] at h; subst h; omega
  | succ k ih =>
    intro d d1 h
    unfold decode_loop at h
    split at h
    · rename_i hlt
      have h1 := ih _ _ h
      have h2 := decode_iter_tape_le buf bufsize isyms num_isyms d
      have h3 := decode_iter_offset_lt buf bufsize isyms num_isyms d
      omega
    · simp only [Option.some.injEq] at h; subst h; omega

theorem read_loop_tape_le (bufsize : Nat) (isyms : Nat → Nat) (num_isyms : Nat) (fuel : Nat) :
    ∀ (stdin : List Fread) (e e1 : Env),
      read_loop bufsize isyms num_isyms fuel stdin e = some e1 →
      e1.tape.length ≤ e.tape.length + ((stdin.map Fread.bytes).flatten).length := by
  intro stdin
  induction stdin with
  | nil =>
    intro e e1 h
    simp only [read_loop, Option.some.injEq] at h
    subst h; simp
  | cons r rest ih =>
    intro e e1 h
    unfold read_loop at h
    simp only at h
    split at h
    · simp only [Option.some.injEq] at h
      subst h; simp
    · split at h
      · simp at h
      · rename_i d hd
        have h1 := ih _ _ h
        have h2 := decode_loop_tape_le _ _ _ _ _ _ _ _ hd
        have h3 : (r.bytes.take bufsize).length ≤ r.bytes.length := by
          rw [List.length_take]; omega
        simp only [List.map_cons, List.flatten_cons, List.length_append] at h1 h2 ⊢
        omega

/-- On a stream read without error that fits the right half of the tape, `tm_run`
reaches the call of the automaton, and the tape it hands over holds the stored
cells from cell `0` on and zero everywhere else. -/
theorem tm_run_setup_stream (S : List Nat) (state0 : mbstate_t) (isyms : Nat → Nat)
    (num_isyms : Nat) (hcap : S.length ≤ TAPE_SIZE / 2 / CELL_BYTES) :
    ∃ (tape : Tape) (cells : List Nat),
      tm_run_setup false (stream STDIN_BUFSIZE S) state0 isyms num_isyms =
        some (Ret.returned tape) ∧
      written (read_input (stream STDIN_BUFSIZE S) state0 (List.replicate STDIN_BUFSIZE 0)
        STDIN_BUFSIZE isyms num_isyms) = some cells ∧
      (∀ i : Nat, i < cells.length → cells[i]? = some (tape (i : Int))) ∧
      (∀ i : Int, (cells.length : Int) ≤ i → tape i = 0) ∧
      (∀ i : Int, i < 0 → tape i = 0) := by
  obtain ⟨e, he, _, _⟩ := read_input_returns S STDIN_BUFSIZE state0
    (List.replicate STDIN_BUFSIZE 0) isyms num_isyms
  have hlen : e.tape.length ≤ S.length := by
    unfold read_input at he
    split at he
    · simp at he
    · rename_i e1 h1
      split at he
      · simp at he
      · simp only [Option.some.injEq, Ret.returned.injEq] at he
        subst he
        have := read_loop_tape_le _ _ _ _ _ _ _ h1
        rw [show ((stream STDIN_BUFSIZE S).map Fread.bytes).flatten = S from
          stream_chunks_join STDIN_BUFSIZE (by decide) _ S (Nat.le_refl _)] at this
        simpa using this
  refine ⟨tape_memory (memset e.buf 0 STDIN_BUFSIZE) e.tape, e.tape, ?_, ?_,
    fun i hi => tape_memory_cells _ _ i hi, fun i hi => tape_memory_right _ _ i hi,
    fun i hi => tape_memory_left _ _ i hi⟩
  · have hc : ¬ TAPE_SIZE / 2 / CELL_BYTES < e.tape.length := by omega
    simp only [tm_run_setup, he, hc, if_false, Bool.false_eq_true]
  · rw [he]; rfl

/-- Whatever the reads deliver and whatever `mmap` returns: a tape that `tm_run`
hands to the automaton is the memory after `read_input` has returned and the
buffer has been cleared. -/
theorem tm_run_setup_returned (mmap_failed : Bool) (stdin : List Fread) (state0 : mbstate_t)
    (isyms : Nat → Nat) (num_isyms : Nat) (tape : Tape)
    (h : tm_run_setup mmap_failed stdin state0 isyms num_isyms = some (Ret.returned tape)) :
    ∃ e, read_input stdin state0 (List.replicate STDIN_BUFSIZE 0) STDIN_BUFSIZE isyms
        num_isyms = some (Ret.returned e) ∧
      tape = tape_memory (memset e.buf 0 STDIN_BUFSIZE) e.tape := by
  unfold tm_run_setup at h
  split at h
  · simp at h
  · split at h
    · simp at h
    · simp at h
    · simp at h
    · rename_i e he
      split at h
      · simp at h
      · simp only [Option.some.injEq, Ret.returned.injEq] at h
        exact ⟨e, he, h.symm⟩

theorem tm_run_halt (fuel : Nat) (mmap_failed : Bool) (stdin : List Fread) (state0 : mbstate_t)
    (fn : tm_func_t) (isyms : Nat → Nat) (num_isyms : Nat) (tape tape1 : Tape) (new_tp : Int)
    (hs : tm_run_setup mmap_failed stdin state0 isyms num_isyms = some (Ret.returned tape))
    (hfn : fn tape 0 = FnResult.halt tape1 new_tp) :
    tm_run fuel mmap_failed stdin state0 fn isyms num_isyms =
      (write_output tape1 isyms num_isyms fuel new_tp).map Ret.returned := by
  simp only [tm_run, hs, hfn]

/-! ## The claims on `write_output` and `tm_run` -/

/-- C6. For every tape, head `h` and alphabet: if `k` is the least offset whose
cell `h + k` is not in the alphabet (Blank is tested like any other symbol), the
loop of `write_output` ends within `k` passes and its output is exactly the lines
of the cells `h, h + 1, ..., h + k - 1`, in this order; nothing at or after cell
`h + k` is reported. -/
theorem write_output_reports_leading_cells (tape : Tape) (h : Int) (isyms : Nat → Nat)
    (num_isyms : Nat) (k fuel : Nat) (hf : k ≤ fuel)
    (hmem : ∀ j : Nat, j < k → is_isym (tape (h + j)) isyms num_isyms = true)
    (hk : is_isym (tape (h + k)) isyms num_isyms = false) :
    write_output tape isyms num_isyms fuel h =
      some ((List.range k).map (fun j : Nat => symbol_line (tape (h + j)))) :=
  write_output_scan tape isyms num_isyms k fuel h hf hmem hk

/-- Witness of `write_output_reports_leading_cells`: cells `3, 4` hold `'1', '0'`,
cell `5` is Blank and cell `6` holds `'1'` again; from head `3` the two symbols
before the Blank are reported and the one after it is not. -/
theorem write_output_reports_leading_cells_witness :
    (2 ≤ 5 ∧
      (∀ j : Nat, j < 2 →
        is_isym ((fun i : Int => if i = 3 then 0x31 else if i = 4 then 0x30
          else if i = 6 then 0x31 else 0) (3 + j)) (fun i => [0x30, 0x31].getD i 0) 2 = true) ∧
      is_isym ((fun i : Int => if i = 3 then 0x31 else if i = 4 then 0x30
          else if i = 6 then 0x31 else 0) (3 + (2 : Nat))) (fun i => [0x30, 0x31].getD i 0) 2 = false) ∧
    write_output (fun i : Int => if i = 3 then 0x31 else if i = 4 then 0x30
          else if i = 6 then 0x31 else 0) (fun i => [0x30, 0x31].getD i 0) 2 5 3 =
      some ["Symbol U+0031 in output stream\n", "Symbol U+0030 in output stream\n"] :=
  ⟨⟨by decide, by decide, by decide⟩,
    write_output_reports_leading_cells _ 3 _ 2 2 5 (by decide) (by decide) (by decide)⟩

/-- C7 (as stated, fails). The stream `1`, the alphabet `{'1'}` passed to `tm_run`
and an automaton that halts at once on cell `0`: `tm_run` reports `U+0031`. There
is no argument for an output alphabet; for the output alphabet `{'2'}` the prefix
of cells from the final head that belong to it is empty, and the report differs
from it. -/
theorem tm_run_ignores_output_alphabet :
    tm_run 4 false (stream STDIN_BUFSIZE [0x31]) mbstate_init (fun t p => FnResult.halt t p)
        (fun _ => 0x31) 1 = some (Ret.returned ["Symbol U+0031 in output stream\n"]) ∧
    write_output (tape_memory (List.replicate STDIN_BUFSIZE 0) [0x31]) (fun _ => 0x32) 1 4 0 =
      some [] ∧
    tm_run 4 false (stream STDIN_BUFSIZE [0x31]) mbstate_init (fun t p => FnResult.halt t p)
        (fun _ => 0x31) 1 ≠
      (write_output (tape_memory (List.replicate STDIN_BUFSIZE 0) [0x31]) (fun _ => 0x32) 1 4
        0).map Ret.returned := by
  set_option maxRecDepth 100000 in decide

/-- C7 (amended). `tm_run` takes one alphabet, `isyms` with `num_isyms`, and uses it
both to filter the input and to scan the output: when the automaton halts with
head `new_tp` on the tape `tape1`, the report is the lines of the cells
`new_tp, ..., new_tp + k - 1`, where `k` is the first offset whose cell is not in
`isyms`. -/
theorem tm_run_reports_leading_cells (fuel : Nat) (mmap_failed : Bool) (stdin : List Fread)
    (state0 : mbstate_t) (fn : tm_func_t) (isyms : Nat → Nat) (num_isyms : Nat)
    (tape tape1 : Tape) (new_tp : Int) (k : Nat)
    (hs : tm_run_setup mmap_failed stdin state0 isyms num_isyms = some (Ret.returned tape))
    (hfn : fn tape 0 = FnResult.halt tape1 new_tp) (hf : k ≤ fuel)
    (hmem : ∀ j : Nat, j < k → is_isym (tape1 (new_tp + j)) isyms num_isyms = true)
    (hk : is_isym (tape1 (new_tp + k)) isyms num_isyms = false) :
    (∃ e, read_input stdin state0 (List.replicate STDIN_BUFSIZE 0) STDIN_BUFSIZE isyms
        num_isyms = some (Ret.returned e) ∧
      tape = tape_memory (memset e.buf 0 STDIN_BUFSIZE) e.tape) ∧
    tm_run fuel mmap_failed stdin state0 fn isyms num_isyms =
      some (Ret.returned ((List.range k).map (fun j : Nat => symbol_line (tape1 (new_tp + j))))) := by
  refine ⟨tm_run_setup_returned _ _ _ _ _ _ hs, ?_⟩
  rw [tm_run_halt fuel mmap_failed stdin state0 fn isyms num_isyms tape tape1 new_tp hs hfn,
    write_output_scan tape1 isyms num_isyms k fuel new_tp hf hmem hk]
  rfl

/-- Witness of `tm_run_reports_leading_cells`: the stream `12` with the alphabet `{'1'}` and
the automaton that halts at once; the scan stops at cell `1`, which is Blank. -/
theorem tm_run_reports_leading_cells_witness :
    ∃ tape : Tape,
      tm_run_setup false (stream STDIN_BUFSIZE [0x31, 0x32]) mbstate_init (fun _ => 0x31) 1 =
        some (Ret.returned tape) ∧
      (∀ j : Nat, j < 1 → is_isym (tape (0 + j)) (fun _ => 0x31) 1 = true) ∧
      is_isym (tape (0 + (1 : Nat))) (fun _ => 0x31) 1 = false ∧
      tm_run 4 false (stream STDIN_BUFSIZE [0x31, 0x32]) mbstate_init
          (fun t p => FnResult.halt t p) (fun _ => 0x31) 1 =
        some (Ret.returned ((List.range 1).map (fun j : Nat => symbol_line (tape (0 + j))))) := by
  obtain ⟨tape, cells, hs, hw, hc, hz, _⟩ :=
    tm_run_setup_stream [0x31, 0x32] mbstate_init (fun _ => 0x31) 1 (by decide)
  have hw1 : written (read_input (stream STDIN_BUFSIZE [0x31, 0x32]) mbstate_init
      (List.replicate STDIN_BUFSIZE 0) STDIN_BUFSIZE (fun _ => 0x31) 1) = some [0x31] := by
    set_option maxRecDepth 100000 in decide
  have hcells : cells = [0x31] := by
    rw [hw1] at hw
    exact (Option.some.inj hw).symm
  subst hcells
  have h0 : tape 0 = 0x31 := by
    have := hc 0 (by decide)
    simpa using this.symm
  have h1 : tape 1 = 0 := hz 1 (by decide)
  have hmem : ∀ j : Nat, j < 1 → is_isym (tape (0 + j)) (fun _ => 0x31) 1 = true := by
    intro j hj
    obtain rfl : j = 0 := by omega
    simp only [Nat.cast_zero, add_zero, h0]
    decide
  have hk : is_isym (tape (0 + (1 : Nat))) (fun _ => 0x31) 1 = false := by
    simp only [Nat.cast_one, zero_add, h1]
    decide
  exact ⟨tape, hs, hmem, hk,
    (tm_run_reports_leading_cells 4 false _ mbstate_init (fun t p => FnResult.halt t p) (fun _ => 0x31)
      1 tape tape 0 1 hs rfl (by decide) hmem hk).2⟩

/-- C8. The tape that `tm_run` hands to the automaton. For a stream read without
error that fits the right half of the tape, the call is reached and, with `cells`
the symbols that `read_input` accepted: cell `i` holds `cells[i]` for
`i < cells.length`, every cell from `cells.length` on is Blank, and every cell left
of cell `0` is Blank, the cells of the scratch buffer included, since that was
cleared. The same holds of every tape handed over, whatever the reads delivered. -/
theorem tm_run_hands_over_tape (state0 : mbstate_t) (isyms : Nat → Nat) (num_isyms : Nat) :
    (∀ S : List Nat, S.length ≤ TAPE_SIZE / 2 / CELL_BYTES →
      ∃ (tape : Tape) (cells : List Nat),
        tm_run_setup false (stream STDIN_BUFSIZE S) state0 isyms num_isyms =
          some (Ret.returned tape) ∧
        written (read_input (stream STDIN_BUFSIZE S) state0 (List.replicate STDIN_BUFSIZE 0)
          STDIN_BUFSIZE isyms num_isyms) = some cells ∧
        (∀ i : Nat, i < cells.length → cells[i]? = some (tape (i : Int))) ∧
        (∀ i : Int, (cells.length : Int) ≤ i → tape i = 0) ∧
        (∀ i : Int, i < 0 → tape i = 0)) ∧
    (∀ (mmap_failed : Bool) (stdin : List Fread) (tape : Tape),
      tm_run_setup mmap_failed stdin state0 isyms num_isyms = some (Ret.returned tape) →
      ∃ cells : List Nat,
        written (read_input stdin state0 (List.replicate STDIN_BUFSIZE 0) STDIN_BUFSIZE isyms
          num_isyms) = some cells ∧
        (∀ i : Nat, i < cells.length → cells[i]? = some (tape (i : Int))) ∧
        (∀ i : Int, (cells.length : Int) ≤ i → tape i = 0) ∧
        (∀ i : Int, i < 0 → tape i = 0)) := by
  refine ⟨fun S hcap => tm_run_setup_stream S state0 isyms num_isyms hcap, ?_⟩
  intro mmap_failed stdin tape h
  obtain ⟨e, he, rfl⟩ := tm_run_setup_returned _ _ _ _ _ _ h
  exact ⟨e.tape, by rw [he]; rfl, fun i hi => tape_memory_cells _ _ i hi,
    fun i hi => tape_memory_right _ _ i hi, fun i hi => tape_memory_left _ _ i hi⟩

/-- Witness of `tm_run_hands_over_tape`: the stream `1011bad\xFF01`. -/
theorem tm_run_hands_over_tape_witness :
    [0x31, 0x30, 0x31, 0x31, 0x62, 0x61, 0x64, 0xFF, 0x30, 0x31].length ≤
        TAPE_SIZE / 2 / CELL_BYTES ∧
    ∃ (tape : Tape) (cells : List Nat),
      tm_run_setup false
          (stream STDIN_BUFSIZE [0x31, 0x30, 0x31, 0x31, 0x62, 0x61, 0x64, 0xFF, 0x30, 0x31])
          mbstate_init (fun i => [0x30, 0x31].getD i 0) 2 = some (Ret.returned tape) ∧
      written (read_input
          (stream STDIN_BUFSIZE [0x31, 0x30, 0x31, 0x31, 0x62, 0x61, 0x64, 0xFF, 0x30, 0x31])
          mbstate_init (List.replicate STDIN_BUFSIZE 0) STDIN_BUFSIZE
          (fun i => [0x30, 0x31].getD i 0) 2) = some cells ∧
      (∀ i : Nat, i < cells.length → cells[i]? = some (tape (i : Int))) ∧
      (∀ i : Int, (cells.length : Int) ≤ i → tape i = 0) ∧
      (∀ i : Int, i < 0 → tape i = 0) :=
  ⟨by decide, (tm_run_hands_over_tape mbstate_init _ 2).1 _ (by decide)⟩

/-- C9. On the empty stream `read_input` returns with nothing stored and the buffer
untouched, so every cell of the tape is Blank, before the buffer is cleared and on
the tape handed to the automaton. And when Blank is not in the output alphabet,
`write_output` started at a head whose cell is Blank writes nothing. -/
theorem empty_stream_blank_tape (state0 : mbstate_t) (isyms : Nat → Nat) (num_isyms : Nat)
    (tape : Tape) (h : Int) (osyms : Nat → Nat) (num_osyms : Nat) (fuel : Nat)
    (hblank : is_isym 0 osyms num_osyms = false) (hcell : tape h = 0) :
    (∃ e, read_input (stream STDIN_BUFSIZE []) state0 (List.replicate STDIN_BUFSIZE 0)
        STDIN_BUFSIZE isyms num_isyms = some (Ret.returned e) ∧
      (∀ i : Int, tape_memory e.buf e.tape i = 0) ∧
      tm_run_setup false (stream STDIN_BUFSIZE []) state0 isyms num_isyms =
        some (Ret.returned (tape_memory (memset e.buf 0 STDIN_BUFSIZE) e.tape)) ∧
      (∀ i : Int, tape_memory (memset e.buf 0 STDIN_BUFSIZE) e.tape i = 0)) ∧
    write_output tape osyms num_osyms fuel h = some [] := by
  refine ⟨⟨⟨List.replicate STDIN_BUFSIZE 0, [], state0, 0, []⟩, rfl, ?_, rfl, ?_⟩, ?_⟩
  · intro i
    by_cases h0 : 0 ≤ i
    · exact tape_memory_right _ _ i (by simpa using h0)
    · simp only [tape_memory, h0, if_false]
      split
      · exact cell_at_zeros _ _
      · rfl
  · intro i
    by_cases h0 : 0 ≤ i
    · exact tape_memory_right _ _ i (by simpa using h0)
    · exact tape_memory_left _ _ i (by omega)
  · exact write_output_stop tape osyms num_osyms fuel h (by rw [hcell]; exact hblank)

/-- Witness of `empty_stream_blank_tape`: the all-Blank tape, head `5`, output
alphabet `{'0', '1'}`. -/
theorem empty_stream_blank_tape_witness :
    (is_isym 0 (fun i => [0x30, 0x31].getD i 0x30) 2 = false ∧ (fun _ : Int => 0) 5 = 0) ∧
    write_output (fun _ : Int => 0) (fun i => [0x30, 0x31].getD i 0x30) 2 3 5 = some [] :=
  ⟨⟨by decide, rfl⟩,
    (empty_stream_blank_tape mbstate_init (fun _ => 0x31) 1 (fun _ : Int => 0) 5
      (fun i => [0x30, 0x31].getD i 0x30) 2 3 (by decide) rfl).2⟩

/-- C10. With the count `0`, `is_isym` is false for every symbol, and `write_output`
writes nothing for every tape and every head. -/
theorem write_output_empty_alphabet (tape : Tape) (isyms : Nat → Nat) (fuel : Nat) (h : Int) :
    write_output tape isyms 0 fuel h = some [] ∧ ∀ w : Nat, is_isym w isyms 0 = false :=
  ⟨write_output_stop tape isyms 0 fuel h rfl, fun _ => rfl⟩

/-! ## The output format, `tm_fail` and `is_isym` -/

theorem hex_digit_spec : ∀ d : Nat, d < 16 →
    is_upper_hex (hex_digit d) = true ∧ hex_value (hex_digit d) = d ∧
      (0 < d → hex_digit d ≠ '0') := by
  decide

theorem hex_number_append (xs : List Char) (c : Char) :
    hex_number (xs ++ [c]) = 16 * hex_number xs + hex_value c := by
  simp [hex_number, List.foldl_append]

theorem hex_number_zeros (k : Nat) (ds : List Char) :
    hex_number (List.replicate k '0' ++ ds) = hex_number ds := by
  unfold hex_number
  rw [List.foldl_append]
  congr 1
  induction k with
  | zero => rfl
  | succ k ih =>
    rw [List.replicate_succ, List.foldl_cons]
    exact ih

/-- The digits that `hex_digits` gives with enough fuel. -/
theorem hex_digits_spec (f : Nat) :
    ∀ v : Nat, v < 16 ^ (f + 1) →
      (∀ c ∈ hex_digits (f + 1) v, is_upper_hex c = true) ∧
      hex_number (hex_digits (f + 1) v) = v ∧
      1 ≤ (hex_digits (f + 1) v).length ∧
      (∀ j : Nat, 1 ≤ j → v < 16 ^ j → (hex_digits (f + 1) v).length ≤ j) ∧
      (∀ j : Nat, 16 ^ j ≤ v → j < (hex_digits (f + 1) v).length) ∧
      (0 < v → (hex_digits (f + 1) v).head? ≠ some '0') := by
  induction f with
  | zero =>
    intro v hv
    have hv16 : v < 16 := by simpa using hv
    obtain ⟨h1, h2, h3⟩ := hex_digit_spec v hv16
    have hd : hex_digits 1 v = [hex_digit v] := by simp [hex_digits, hv16]
    rw [hd]
    refine ⟨by simpa using h1, by simp [hex_number, h2], by simp, fun j hj _ => by simpa using hj,
      fun j hj => ?_, fun h0 => by simpa using h3 h0⟩
    cases j with
    | zero => simp
    | succ j =>
      have : 16 ≤ 16 ^ (j + 1) := by
        calc 16 = 16 ^ 1 := by norm_num
          _ ≤ 16 ^ (j + 1) := Nat.pow_le_pow_right (by norm_num) (by omega)
      omega
  | succ f ih =>
    intro v hv
    by_cases hv16 : v < 16
    · obtain ⟨h1, h2, h3⟩ := hex_digit_spec v hv16
      have hd : hex_digits (f + 1 + 1) v = [hex_digit v] := by simp [hex_digits, hv16]
      rw [hd]
      refine ⟨by simpa using h1, by simp [hex_number, h2], by simp,
        fun j hj _ => by simpa using hj, fun j hj => ?_, fun h0 => by simpa using h3 h0⟩
      cases j with
      | zero => simp
      | succ j =>
        have : 16 ≤ 16 ^ (j + 1) := by
          calc 16 = 16 ^ 1 := by norm_num
            _ ≤ 16 ^ (j + 1) := Nat.pow_le_pow_right (by norm_num) (by omega)
        omega
    · have hq : v / 16 < 16 ^ (f + 1) := by
        rw [Nat.div_lt_iff_lt_mul (by norm_num)]
        calc v < 16 ^ (f + 1 + 1) := hv
          _ = 16 ^ (f + 1) * 16 := by rw [Nat.pow_succ]
      obtain ⟨i1, i2, i3, i4, i5, i6⟩ := ih (v / 16) hq
      obtain ⟨h1, h2, _⟩ := hex_digit_spec (v % 16) (Nat.mod_lt _ (by norm_num))
      have hd : hex_digits (f + 1 + 1) v = hex_digits (f + 1) (v / 16) ++ [hex_digit (v % 16)] := by
        rw [hex_digits]; simp only [hv16, if_false]
      rw [hd]
      refine ⟨?_, ?_, by simp, ?_, ?_, ?_⟩
      · intro c hc
        rcases List.mem_append.mp hc with hc | hc
        · exact i1 c hc
        · simp only [List.mem_singleton] at hc; rw [hc]; exact h1
      · rw [hex_number_append, i2, h2]; omega
      · intro j hj hvj
        obtain ⟨j', rfl⟩ : ∃ j', j = j' + 1 := ⟨j - 1, by omega⟩
        have hj' : 1 ≤ j' := by
          rcases Nat.eq_zero_or_pos j' with h | h
          · subst h; simp at hvj; omega
          · exact h
        have : v / 16 < 16 ^ j' := by
          rw [Nat.div_lt_iff_lt_mul (by norm_num)]
          calc v < 16 ^ (j' + 1) := hvj
            _ = 16 ^ j' * 16 := by rw [Nat.pow_succ]
        have := i4 j' hj' this
        simp only [List.length_append, List.length_singleton]
        omega
      · intro j hj
        simp only [List.length_append, List.length_singleton]
        cases j with
        | zero => omega
        | succ j' =>
          have : 16 ^ j' ≤ v / 16 := by
            rw [Nat.le_div_iff_mul_le (by norm_num)]
            calc 16 ^ j' * 16 = 16 ^ (j' + 1) := by rw [Nat.pow_succ]
              _ ≤ v := hj
          have := i5 j' this
          omega
      · intro _
        have hpos : 0 < v / 16 := Nat.div_pos (by omega) (by norm_num)
        have hh := i6 hpos
        cases hl : hex_digits (f + 1) (v / 16) with
        | nil => rw [hl] at i3; simp at i3
        | cons a l => rw [hl] at hh; simpa using hh

/-- The conversion `%04X`: the digits are upper-case hexadecimal digits, they
denote the value, there are four of them below `0x10000` and more, without a
leading zero, from `0x10000` on. -/
theorem fmt_04X_spec (s : Nat) (hs : s < 2 ^ 32) :
    ∃ ds : List Char, fmt_04X s = String.mk ds ∧
      (∀ c ∈ ds, is_upper_hex c = true) ∧ hex_number ds = s ∧
      (s < 0x10000 → ds.length = 4) ∧
      (0x10000 ≤ s → 4 < ds.length ∧ ds.head? ≠ some '0') := by
  obtain ⟨h1, h2, h3, h4, h5, h6⟩ := hex_digits_spec 7 s (by norm_num at hs ⊢; exact hs)
  simp only [Nat.reduceAdd] at h1 h2 h3 h4 h5 h6
  refine ⟨List.replicate (4 - (hex_digits 8 s).length) '0' ++ hex_digits 8 s, ?_, ?_, ?_, ?_, ?_⟩
  · simp only [fmt_04X, Nat.mod_eq_of_lt hs]
  · intro c hc
    rcases List.mem_append.mp hc with hc | hc
    · rw [(List.mem_replicate.mp hc).2]; decide
    · exact h1 c hc
  · rw [hex_number_zeros, h2]
  · intro hlt
    have := h4 4 (by norm_num) (by norm_num; exact hlt)
    simp only [List.length_append, List.length_replicate]
    omega
  · intro hge
    have h := h5 4 (by norm_num; exact hge)
    have hz : 4 - (hex_digits 8 s).length = 0 := by omega
    rw [hz, List.replicate_zero, List.nil_append]
    exact ⟨h, h6 (by omega)⟩

/-- C11. For every 32-bit symbol `s` the line that `write_output` prints for it is
`Symbol U+`, then digits, then ` in output stream` and a newline, where the digits
are upper-case hexadecimal digits that denote `s`, four of them when
`s < 0x10000` (zeros on the left) and more than four with no leading zero
otherwise. `write_output` prints one such line for each cell it reports, in scan
order. -/
theorem symbol_line_format (s : Nat) (hs : s < 2 ^ 32) :
    (∃ ds : List Char,
      symbol_line s = "Symbol U+" ++ String.mk ds ++ " in output stream\n" ∧
      (∀ c ∈ ds, is_upper_hex c = true) ∧ hex_number ds = s ∧
      (s < 0x10000 → ds.length = 4) ∧
      (0x10000 ≤ s → 4 < ds.length ∧ ds.head? ≠ some '0')) ∧
    (∀ (tape : Tape) (h : Int) (isyms : Nat → Nat) (num_isyms : Nat) (k fuel : Nat), k ≤ fuel →
      (∀ j : Nat, j < k → is_isym (tape (h + j)) isyms num_isyms = true) →
      is_isym (tape (h + k)) isyms num_isyms = false →
      write_output tape isyms num_isyms fuel h =
        some ((List.range k).map (fun j : Nat => symbol_line (tape (h + j))))) ∧
    symbol_line 0x31 = "Symbol U+0031 in output stream\n" ∧
    symbol_line 0x1F600 = "Symbol U+1F600 in output stream\n" ∧
    symbol_line 0xFFFFFFFF = "Symbol U+FFFFFFFF in output stream\n" := by
  obtain ⟨ds, h0, h1, h2, h3, h4⟩ := fmt_04X_spec s hs
  refine ⟨⟨ds, by rw [symbol_line, h0], h1, h2, h3, h4⟩,
    fun tape h isyms num_isyms k fuel hf hmem hk =>
      write_output_scan tape isyms num_isyms k fuel h hf hmem hk,
    by decide, by decide, by decide⟩

/-- Witness of `symbol_line_format`: the symbol `U+1F600`. -/
theorem symbol_line_format_witness :
    0x1F600 < 2 ^ 32 ∧
    ∃ ds : List Char,
      symbol_line 0x1F600 = "Symbol U+" ++ String.mk ds ++ " in output stream\n" ∧
      (∀ c ∈ ds, is_upper_hex c = true) ∧ hex_number ds = 0x1F600 ∧
      (0x1F600 < 0x10000 → ds.length = 4) ∧
      (0x10000 ≤ 0x1F600 → 4 < ds.length ∧ ds.head? ≠ some '0') :=
  ⟨by decide, (symbol_line_format 0x1F600 (by decide)).1⟩

theorem tm_fail_message_blank (state : String) :
    tm_fail_message state 0 =
      some (PREFIX ++ ("No transition from " ++ state ++ " on symbol blank (U+0000)") ++ "\n") := by
  simp only [tm_fail_message, if_true, String.append_assoc]
  rfl

/-- C12. For every state name, `tm_fail(state, 0)` writes the tag followed by
`No transition from {state} on symbol blank (U+0000)` and a newline to the error
stream and exits with `EXIT_FAILURE`, which is not zero; for the state `q3` the
diagnostic is `No transition from q3 on symbol blank (U+0000)`. -/
theorem tm_fail_blank (state : String) :
    (tm_fail state 0 : Ret (List String)) =
      Ret.exited
        [PREFIX ++ ("No transition from " ++ state ++ " on symbol blank (U+0000)") ++ "\n"]
        EXIT_FAILURE ∧
    EXIT_FAILURE ≠ 0 ∧
    (tm_fail "q3" 0 : Ret (List String)) =
      Ret.exited ["libturingrt: No transition from q3 on symbol blank (U+0000)\n"] 1 := by
  refine ⟨?_, by decide, by decide⟩
  simp only [tm_fail, tm_fail_message_blank]

theorem isprint_byte (s : Nat) (h : s ≤ 255) :
    isprint s = some (decide (0x20 ≤ s) && decide (s ≤ 0x7E)) := by
  simp only [isprint, h, if_true]

theorem tm_fail_message_printable (state : String) (s : Nat) (h0 : 0x20 ≤ s) (h1 : s ≤ 0x7E) :
    tm_fail_message state s =
      some (PREFIX ++ ("No transition from " ++ state ++ " on symbol \x27" ++
        String.singleton (Char.ofNat s) ++ "\x27 (U+" ++ fmt_04X s ++ ")") ++ "\n") := by
  have hne : ¬ s = 0 := by omega
  have hp : isprint s = some true := by
    rw [isprint_byte s (by omega)]; simp [h0, h1]
  have hm : s % 256 = s := Nat.mod_eq_of_lt (by omega)
  simp only [tm_fail_message, hne, if_false, hp, hm, String.append_assoc]
  rfl

theorem tm_fail_message_raw (state : String) (s : Nat) (h0 : 0 < s) (h255 : s ≤ 255)
    (h1 : s < 0x20 ∨ 0x7F ≤ s) :
    tm_fail_message state s =
      some (PREFIX ++ ("No transition from " ++ state ++ " on symbol U+" ++ fmt_04X s) ++ "\n") := by
  have hne : ¬ s = 0 := by omega
  have hp : isprint s = some false := by
    rw [isprint_byte s h255]
    rcases h1 with h1 | h1
    · have : ¬ 0x20 ≤ s := by omega
      simp [this]
    · have : ¬ s ≤ 0x7E := by omega
      simp [this]
  simp only [tm_fail_message, hne, if_false, hp, String.append_assoc]

/-- C13 (fails on the code). `tm_fail` passes the 32-bit symbol to `isprint`. For the
symbol `U+1F600` that call is outside the domain of `isprint` and the behaviour of
`tm_fail` is undefined, where the claim has the message `... U+1F600`. For the
symbols `isprint` is defined on, the message is chosen as the claim says:
printable ASCII gives the quoted character and the code point, every other
symbol from `1` to `FF` gives the code point alone; `q1` with `A` gives
`'A' (U+0041)`. -/
theorem tm_fail_symbol_class (state : String) :
    isprint 0x1F600 = none ∧
    (tm_fail state 0x1F600 : Ret (List String)) = Ret.undefined ∧
    (∀ s : Nat, 0x20 ≤ s → s ≤ 0x7E →
      (tm_fail state s : Ret (List String)) =
        Ret.exited [PREFIX ++ ("No transition from " ++ state ++ " on symbol \x27" ++
          String.singleton (Char.ofNat s) ++ "\x27 (U+" ++ fmt_04X s ++ ")") ++ "\n"]
          EXIT_FAILURE) ∧
    (∀ s : Nat, 0 < s → s ≤ 255 → s < 0x20 ∨ 0x7F ≤ s →
      (tm_fail state s : Ret (List String)) =
        Ret.exited [PREFIX ++ ("No transition from " ++ state ++ " on symbol U+" ++ fmt_04X s)
          ++ "\n"] EXIT_FAILURE) ∧
    (tm_fail "q1" 0x41 : Ret (List String)) =
      Ret.exited ["libturingrt: No transition from q1 on symbol \x27A\x27 (U+0041)\n"] 1 := by
  refine ⟨by decide, ?_, ?_, ?_, by decide⟩
  · have h : tm_fail_message state 0x1F600 = none := by
      simp only [tm_fail_message]
      rfl
    simp only [tm_fail, h]
  · intro s h0 h1
    simp only [tm_fail, tm_fail_message_printable state s h0 h1]
  · intro s h0 h255 h1
    simp only [tm_fail, tm_fail_message_raw state s h0 h255 h1]

/-- The message of `tm_fail` for a symbol on which `isprint` is defined: one text
that begins with the tag. -/
theorem tm_fail_message_tag (state : String) (s : Nat) (h : s ≤ 255) :
    ∃ rest : String, tm_fail_message state s = some (PREFIX ++ rest) := by
  unfold tm_fail_message
  by_cases h0 : s = 0
  · simp only [h0, if_true, String.append_assoc]
    exact ⟨_, rfl⟩
  · simp only [h0, if_false, isprint_byte s h]
    cases decide (0x20 ≤ s) && decide (s ≤ 0x7E)
    · simp only [String.append_assoc]
      exact ⟨_, rfl⟩
    · simp only [String.append_assoc]
      exact ⟨_, rfl⟩

theorem tm_run_fail (fuel : Nat) (mmap_failed : Bool) (stdin : List Fread) (state0 : mbstate_t)
    (fn : tm_func_t) (isyms : Nat → Nat) (num_isyms : Nat) (tape : Tape) (state : String)
    (symbol : Nat)
    (hs : tm_run_setup mmap_failed stdin state0 isyms num_isyms = some (Ret.returned tape))
    (hfn : fn tape 0 = FnResult.fail state symbol) :
    tm_run fuel mmap_failed stdin state0 fn isyms num_isyms = some (tm_fail state symbol) := by
  simp only [tm_run, hs, hfn]

/-- C14 (fails on the code). For the symbol `U+10FFFF` the call of `isprint` in
`tm_fail` is undefined, so neither the diagnostic line nor the exit status is
determined. For every state name and every symbol up to `FF`, `tm_fail` writes
exactly one line, which begins with the tag `libturingrt: `, and exits with
`EXIT_FAILURE`; a `tm_run` whose automaton calls it ends in that exit, with
nothing written to standard output. -/
theorem tm_fail_exits (state : String) :
    (tm_fail state 0x10FFFF : Ret (List String)) = Ret.undefined ∧
    (∀ symbol : Nat, symbol ≤ 255 →
      ∃ rest : String,
        (tm_fail state symbol : Ret (List String)) =
          Ret.exited [PREFIX ++ rest] EXIT_FAILURE ∧
        EXIT_FAILURE ≠ 0 ∧
        ∀ (fuel : Nat) (mmap_failed : Bool) (stdin : List Fread) (state0 : mbstate_t)
          (fn : tm_func_t) (isyms : Nat → Nat) (num_isyms : Nat) (tape : Tape),
          tm_run_setup mmap_failed stdin state0 isyms num_isyms = some (Ret.returned tape) →
          fn tape 0 = FnResult.fail state symbol →
          tm_run fuel mmap_failed stdin state0 fn isyms num_isyms =
            some (Ret.exited [PREFIX ++ rest] EXIT_FAILURE)) := by
  refine ⟨?_, ?_⟩
  · have h : tm_fail_message state 0x10FFFF = none := by
      simp only [tm_fail_message]
      rfl
    simp only [tm_fail, h]
  · intro symbol h
    obtain ⟨rest, hr⟩ := tm_fail_message_tag state symbol h
    have ht : ∀ α : Type, (tm_fail state symbol : Ret α) = Ret.exited [PREFIX ++ rest] EXIT_FAILURE := by
      intro α
      simp only [tm_fail, hr]
    refine ⟨rest, ht _, by decide, ?_⟩
    intro fuel mmap_failed stdin state0 fn isyms num_isyms tape hs hfn
    rw [tm_run_fail fuel mmap_failed stdin state0 fn isyms num_isyms tape state symbol hs hfn, ht]

theorem is_isym_loop_iff (which : Nat) (isyms : Nat → Nat) (k : Nat) :
    ∀ i : Nat, is_isym_loop which isyms k i = true ↔ ∃ j, i ≤ j ∧ j < i + k ∧ isyms j = which := by
  induction k with
  | zero =>
    intro i
    simp only [is_isym_loop, Bool.false_eq_true, false_iff]
    rintro ⟨j, h1, h2, _⟩
    omega
  | succ k ih =>
    intro i
    unfold is_isym_loop
    by_cases h : which = isyms i
    · simp only [h, if_true, true_iff]
      exact ⟨i, Nat.le_refl _, by omega, rfl⟩
    · simp only [h, if_false, ih (i + 1)]
      constructor
      · rintro ⟨j, h1, h2, h3⟩
        exact ⟨j, by omega, by omega, h3⟩
      · rintro ⟨j, h1, h2, h3⟩
        have hne : j ≠ i := fun hji => h (by rw [← h3, hji])
        exact ⟨j, by omega, by omega, h3⟩

/-- C16. `is_isym(which, isyms, num_isyms)` is true if and only if some index
`i < num_isyms` has `isyms[i] = which`. Hence two alphabets that hold the same
symbols, in any order and with any repetitions, give the same result. -/
theorem is_isym_iff (which : Nat) (isyms : Nat → Nat) (num_isyms : Nat) :
    (is_isym which isyms num_isyms = true ↔ ∃ i, i < num_isyms ∧ isyms i = which) ∧
    (∀ (isyms1 : Nat → Nat) (num_isyms1 : Nat),
      (∀ w : Nat, (∃ i, i < num_isyms ∧ isyms i = w) ↔ (∃ j, j < num_isyms1 ∧ isyms1 j = w)) →
      is_isym which isyms1 num_isyms1 = is_isym which isyms num_isyms) := by
  have key : ∀ (a : Nat → Nat) (n : Nat),
      is_isym which a n = true ↔ ∃ i, i < n ∧ a i = which := by
    intro a n
    rw [is_isym, is_isym_loop_iff]
    constructor
    · rintro ⟨j, _, h2, h3⟩; exact ⟨j, by omega, h3⟩
    · rintro ⟨j, h2, h3⟩; exact ⟨j, Nat.zero_le _, by omega, h3⟩
  refine ⟨key isyms num_isyms, fun isyms1 num_isyms1 hsame => ?_⟩
  have h1 := key isyms num_isyms
  have h2 := key isyms1 num_isyms1
  have h3 := hsame which
  cases ha : is_isym which isyms num_isyms <;> cases hb : is_isym which isyms1 num_isyms1
  · rfl
  · exact absurd (h1.mpr (h3.mpr (h2.mp hb))) (by rw [ha]; decide)
  · exact absurd (h2.mpr (h3.mp (h1.mp ha))) (by rw [hb]; decide)
  · rfl

/-- Witness of `is_isym_iff`: the arrays `30 31` and `31 30 31` hold the same symbols. -/
theorem is_isym_iff_witness :
    (∀ w : Nat, (∃ i, i < 2 ∧ (fun i => [0x30, 0x31].getD i 0) i = w) ↔
      (∃ j, j < 3 ∧ (fun j => [0x31, 0x30, 0x31].getD j 0) j = w)) ∧
    is_isym 0x31 (fun j => [0x31, 0x30, 0x31].getD j 0) 3 =
      is_isym 0x31 (fun i => [0x30, 0x31].getD i 0) 2 := by
  have hsame : ∀ w : Nat, (∃ i, i < 2 ∧ (fun i => [0x30, 0x31].getD i 0) i = w) ↔
      (∃ j, j < 3 ∧ (fun j => [0x31, 0x30, 0x31].getD j 0) j = w) := by
    intro w
    constructor
    · rintro ⟨i, hi, rfl⟩
      interval_cases i
      · exact ⟨1, by decide, rfl⟩
      · exact ⟨0, by decide, rfl⟩
    · rintro ⟨j, hj, rfl⟩
      interval_cases j
      · exact ⟨1, by decide, rfl⟩
      · exact ⟨0, by decide, rfl⟩
      · exact ⟨1, by decide, rfl⟩
  exact ⟨hsame, (is_isym_iff 0x31 (fun i => [0x30, 0x31].getD i 0) 2).2 _ 3 hsame⟩

/-! ## Read errors, buffer bounds and the round trip -/

/-- The loop of `read_input` goes through reads that deliver bytes, whatever they
store in `errno`, and ends at the first read that delivers none, with `errno` as
that read left it. -/
theorem read_loop_ends (bufsize : Nat) (isyms : Nat → Nat) (num_isyms : Nat) (r : Fread)
    (post : List Fread) (hr : r.bytes.take bufsize = []) :
    ∀ (pre : List Fread) (e : Env), (∀ x ∈ pre, x.bytes.take bufsize ≠ []) →
      ∃ e1, read_loop bufsize isyms num_isyms bufsize (pre ++ r :: post) e = some e1 ∧
        e1.errno = r.err ∧ e1.unread = post := by
  intro pre
  induction pre with
  | nil =>
    intro e _
    refine ⟨{ e with errno := r.err, unread := post }, ?_, rfl, rfl⟩
    rw [List.nil_append, read_loop]
    simp only [hr, List.length_nil, if_true]
  | cons x pre ih =>
    intro e h
    have hx : ¬ (x.bytes.take bufsize).length = 0 := fun h0 =>
      h x (List.mem_cons_self _ _) (List.length_eq_zero.mp h0)
    obtain ⟨d1, hd, _⟩ := decode_loop_terminates
      (x.bytes.take bufsize ++ e.buf.drop (x.bytes.take bufsize).length) bufsize
      (x.bytes.take bufsize).length isyms num_isyms bufsize ⟨0, e.tape, e.state, x.err⟩
      (by simp only [List.length_take]; omega)
    rw [List.cons_append, read_loop]
    simp only [hx, if_false, hd]
    exact ih _ (fun y hy => h y (List.mem_cons_of_mem _ hy))

/-- When every read delivers bytes until the reads run out, the loop ends at end
of file with `errno` zero. -/
theorem read_loop_eof (bufsize : Nat) (isyms : Nat → Nat) (num_isyms : Nat) :
    ∀ (pre : List Fread) (e : Env), (∀ x ∈ pre, x.bytes.take bufsize ≠ []) →
      ∃ e1, read_loop bufsize isyms num_isyms bufsize pre e = some e1 ∧ e1.errno = 0 := by
  intro pre
  induction pre with
  | nil => intro e _; exact ⟨_, rfl, rfl⟩
  | cons x pre ih =>
    intro e h
    have hx : ¬ (x.bytes.take bufsize).length = 0 := fun h0 =>
      h x (List.mem_cons_self _ _) (List.length_eq_zero.mp h0)
    obtain ⟨d1, hd, _⟩ := decode_loop_terminates
      (x.bytes.take bufsize ++ e.buf.drop (x.bytes.take bufsize).length) bufsize
      (x.bytes.take bufsize).length isyms num_isyms bufsize ⟨0, e.tape, e.state, x.err⟩
      (by simp only [List.length_take]; omega)
    rw [read_loop]
    simp only [hx, if_false, hd]
    exact ih _ (fun y hy => h y (List.mem_cons_of_mem _ hy))

/-- C15 (fails on the code). The reads: one byte `'1'` with `errno` set to `4`
(`EINTR`), then zero bytes without error. A read has reported an error, and
`read_input` returns normally with the byte stored: `errno` is set to `0` before
every read and tested only after the loop. What holds for all reads: the loop
passes every read that delivers bytes, whatever it stored in `errno`; it ends
normally at end of file and at a zero-byte read without error, and it takes the
`exit` at a zero-byte read that stored an error. -/
theorem read_input_error_exit (state0 : mbstate_t) (buf : List Nat) (bufsize : Nat)
    (isyms : Nat → Nat) (num_isyms : Nat) :
    written (read_input [⟨[0x31], 4⟩, ⟨[], 0⟩] mbstate_init (List.replicate STDIN_BUFSIZE 0)
      STDIN_BUFSIZE (fun _ => 0x31) 1) = some [0x31] ∧
    (∀ pre : List Fread, (∀ x ∈ pre, x.bytes.take bufsize ≠ []) →
      (∃ e, read_input pre state0 buf bufsize isyms num_isyms = some (Ret.returned e)) ∧
      (∀ (r : Fread) (post : List Fread), r.bytes.take bufsize = [] →
        (r.err = 0 →
          ∃ e, read_input (pre ++ r :: post) state0 buf bufsize isyms num_isyms =
            some (Ret.returned e)) ∧
        (r.err ≠ 0 →
          read_input (pre ++ r :: post) state0 buf bufsize isyms num_isyms =
            some (Ret.exited [PREFIX ++ "failed to read from standard input"] EXIT_FAILURE)))) := by
  refine ⟨by set_option maxRecDepth 100000 in decide, ?_⟩
  intro pre hpre
  refine ⟨?_, ?_⟩
  · obtain ⟨e1, h1, h2⟩ := read_loop_eof bufsize isyms num_isyms pre ⟨buf, [], state0, 0, pre⟩ hpre
    exact ⟨e1, by simp only [read_input, h1, h2, ne_eq, not_true_eq_false, if_false]⟩
  · intro r post hr
    obtain ⟨e1, h1, h2, _⟩ := read_loop_ends bufsize isyms num_isyms r post hr pre
      ⟨buf, [], state0, 0, pre ++ r :: post⟩ hpre
    refine ⟨fun h0 => ⟨e1, ?_⟩, fun h0 => ?_⟩
    · simp only [read_input, h1, h2, h0, ne_eq, not_true_eq_false, if_false]
    · simp only [read_input, h1, h2, ne_eq, h0, not_false_eq_true, if_true]

/-- Decode loop on the full chunk `61 A9` followed by `k` bytes `61`. -/
theorem decode_loop_61_A9_fill (k : Nat) (isyms : Nat → Nat) (num_isyms : Nat)
    (h61 : is_isym 0x61 isyms num_isyms = false) :
    decode_loop ([0x61, 0xA9] ++ List.replicate k 0x61) (k + 2) (k + 2) isyms num_isyms (k + 2)
        ⟨0, [], mbstate_init, 0⟩ = some ⟨k + 2, [], mbstate_init, EILSEQ⟩ := by
  have hi0 : decode_iter ([0x61, 0xA9] ++ List.replicate k 0x61) (k + 2) isyms num_isyms
      ⟨0, [], mbstate_init, 0⟩ = ⟨0 + 1, [], mbstate_init, 0⟩ :=
    (decode_iter_ascii ([0x61, 0xA9] ++ List.replicate k 0x61) (k + 2) isyms num_isyms 0 [] 0
      0x61 (0xA9 :: List.replicate k 0x61) (by simp) (by decide) (by decide) (by omega)).trans
      (by simp [h61])
  have hi1 : decode_iter ([0x61, 0xA9] ++ List.replicate k 0x61) (k + 2) isyms num_isyms
      ⟨0 + 1, [], mbstate_init, 0⟩ = ⟨0 + 1 + 1, [], mbstate_init, EILSEQ⟩ :=
    decode_iter_invalid _ _ _ _ _ _ _ _
      (by rw [show k + 2 - (0 + 1) = k + 1 by omega]; rfl)
  have hrun := decode_loop_run ([0x61, 0xA9] ++ List.replicate k 0x61) (k + 2) (k + 2) isyms
    num_isyms 0x61 (by decide) (by decide) h61 (Nat.le_refl _) [] [] EILSEQ 0 k (0 + 1 + 1)
    (by simp) (by omega)
  rw [show decode_loop ([0x61, 0xA9] ++ List.replicate k 0x61) (k + 2) (k + 2) isyms num_isyms
      (k + 2) ⟨0, [], mbstate_init, 0⟩ =
    decode_loop ([0x61, 0xA9] ++ List.replicate k 0x61) (k + 2) (k + 2) isyms num_isyms
      ((0 + k) + 1 + 1) ⟨0, [], mbstate_init, 0⟩ from by rw [show (0 + k) + 1 + 1 = k + 2 by omega]]
  rw [decode_loop_step _ _ _ _ _ _ _ (by show 0 < k + 2; omega), hi0,
    decode_loop_step _ _ _ _ _ _ _ (by show 0 + 1 < k + 2; omega), hi1, hrun,
    decode_loop_done _ _ _ _ _ _ _ (by show k + 2 ≤ 0 + 1 + 1 + k; omega)]
  rw [show 0 + 1 + 1 + k = k + 2 by omega]

/-- Decode loop on a chunk of the single byte `C3` when the next byte of the buffer
is `A9`: one pass, which takes both bytes. -/
theorem decode_loop_C3_then_A9 (bufsize fuel : Nat) (isyms : Nat → Nat) (num_isyms : Nat)
    (rest t : List Nat) (e : Nat) (hb : 2 ≤ bufsize) (hf : 0 < fuel) :
    decode_loop (0xC3 :: 0xA9 :: rest) bufsize 1 isyms num_isyms fuel ⟨0, t, mbstate_init, e⟩ =
      some ⟨2, if is_isym 0xE9 isyms num_isyms then t ++ [0xE9] else t, mbstate_init, e⟩ := by
  obtain ⟨j, rfl⟩ : ∃ j, bufsize = j + 2 := ⟨bufsize - 2, by omega⟩
  have hi : decode_iter (0xC3 :: 0xA9 :: rest) (j + 2) isyms num_isyms ⟨0, t, mbstate_init, e⟩ =
      ⟨0 + (2 - 0), if is_isym 0xE9 isyms num_isyms then t ++ [0xE9] else t, mbstate_init, e⟩ :=
    decode_iter_complete _ _ _ _ _ _ _ _ 0xE9 2 (by rfl) (by decide) (by decide)
  rw [decode_loop_last _ _ _ _ _ _ _ hf (by show 0 < 1; omega)
    (by rw [hi]; show 1 ≤ 0 + (2 - 0); omega), hi]

/-- The same chunk when the next byte of the buffer is `61`: one pass, an encoding
error, one byte skipped. -/
theorem decode_loop_C3_then_61 (bufsize fuel : Nat) (isyms : Nat → Nat) (num_isyms : Nat)
    (rest t : List Nat) (e : Nat) (hb : 2 ≤ bufsize) (hf : 0 < fuel) :
    decode_loop (0xC3 :: 0x61 :: rest) bufsize 1 isyms num_isyms fuel ⟨0, t, mbstate_init, e⟩ =
      some ⟨1, t, mbstate_init, EILSEQ⟩ := by
  obtain ⟨j, rfl⟩ : ∃ j, bufsize = j + 2 := ⟨bufsize - 2, by omega⟩
  have hi : decode_iter (0xC3 :: 0x61 :: rest) (j + 2) isyms num_isyms ⟨0, t, mbstate_init, e⟩ =
      ⟨0 + 1, t, mbstate_init, EILSEQ⟩ :=
    decode_iter_invalid _ _ _ _ _ _ _ _ (by rfl)
  rw [decode_loop_last _ _ _ _ _ _ _ hf (by show 0 < 1; omega) (by rw [hi]), hi]

/-- C17 (fails on the code). The run on `61 A9`, 8190 bytes `61`, `C3` stores
`U+00E9`. Its first decode loop leaves the chunk `61 A9 61 ...` in the buffer. Its
second decode loop has `bytes = 1` (the byte `C3`) and ends with `offset = 2`, which
is not `≤ bytes`: `mbrtowc` was given `bufsize - offset` bytes and took the `A9` at
index `1`. With `61` at index `1` instead (the same bytes below `bytes`) the same
loop ends otherwise: the decode step does examine positions from `bytes` on. -/
theorem decode_loop_reads_past_bytes :
    written (read_input
        (stream STDIN_BUFSIZE ([0x61, 0xA9] ++ List.replicate 8190 0x61 ++ [0xC3]))
        mbstate_init (List.replicate STDIN_BUFSIZE 0) STDIN_BUFSIZE (fun _ => 0xE9) 1) =
      some [0xE9] ∧
    decode_loop ([0x61, 0xA9] ++ List.replicate 8190 0x61) STDIN_BUFSIZE STDIN_BUFSIZE
        (fun _ => 0xE9) 1 STDIN_BUFSIZE ⟨0, [], mbstate_init, 0⟩ =
      some ⟨STDIN_BUFSIZE, [], mbstate_init, EILSEQ⟩ ∧
    decode_loop (0xC3 :: 0xA9 :: List.replicate 8190 0x61) STDIN_BUFSIZE 1 (fun _ => 0xE9) 1
        STDIN_BUFSIZE ⟨0, [], mbstate_init, 0⟩ = some ⟨2, [0xE9], mbstate_init, 0⟩ ∧
    ¬ (2 ≤ 1) ∧
    decode_loop (0xC3 :: 0x61 :: List.replicate 8190 0x61) STDIN_BUFSIZE 1 (fun _ => 0xE9) 1
        STDIN_BUFSIZE ⟨0, [], mbstate_init, 0⟩ = some ⟨1, [], mbstate_init, EILSEQ⟩ :=
  ⟨read_input_stale_byte 8190 _ 1 _ (List.length_replicate _ _) (by decide) (by decide),
    decode_loop_61_A9_fill 8190 _ 1 (by decide),
    (decode_loop_C3_then_A9 STDIN_BUFSIZE STDIN_BUFSIZE _ 1 _ [] 0 (by decide) (by decide)).trans
      (by decide),
    by decide,
    decode_loop_C3_then_61 STDIN_BUFSIZE STDIN_BUFSIZE _ 1 _ [] 0 (by decide) (by decide)⟩

/-- A pass of the decode loop stores only symbols of the alphabet. -/
theorem decode_iter_tape_mem (buf : List Nat) (bufsize : Nat) (isyms : Nat → Nat)
    (num_isyms : Nat) (d : Dec) (h : ∀ w ∈ d.tape, is_isym w isyms num_isyms = true) :
    ∀ w ∈ (decode_iter buf bufsize isyms num_isyms d).tape, is_isym w isyms num_isyms = true := by
  unfold decode_iter
  simp only
  split
  · split
    · rename_i hm
      intro w hw
      rcases List.mem_append.mp hw with hw | hw
      · exact h w hw
      · simp only [List.mem_singleton] at hw
        rw [hw]; exact hm
    · exact h
  · exact h

theorem decode_loop_tape_mem (buf : List Nat) (bufsize bytes : Nat) (isyms : Nat → Nat)
    (num_isyms : Nat) (fuel : Nat) :
    ∀ d d1 : Dec, decode_loop buf bufsize bytes isyms num_isyms fuel d = some d1 →
      (∀ w ∈ d.tape, is_isym w isyms num_isyms = true) →
      ∀ w ∈ d1.tape, is_isym w isyms num_isyms = true := by
  induction fuel with
  | zero =>
    intro d d1 h hm
    unfold decode_loop at h
    split at h
    · simp at h
    · simp only [Option.some.injEq] at h; subst h; exact hm
  | succ k ih =>
    intro d d1 h hm
    unfold decode_loop at h
    split at h
    · exact ih _ _ h (decode_iter_tape_mem buf bufsize isyms num_isyms d hm)
    · simp only [Option.some.injEq] at h; subst h; exact hm

theorem read_loop_tape_mem (bufsize : Nat) (isyms : Nat → Nat) (num_isyms : Nat) (fuel : Nat) :
    ∀ (stdin : List Fread) (e e1 : Env),
      read_loop bufsize isyms num_isyms fuel stdin e = some e1 →
      (∀ w ∈ e.tape, is_isym w isyms num_isyms = true) →
      ∀ w ∈ e1.tape, is_isym w isyms num_isyms = true := by
  intro stdin
  induction stdin with
  | nil =>
    intro e e1 h hm
    simp only [read_loop, Option.some.injEq] at h
    subst h; exact hm
  | cons r rest ih =>
    intro e e1 h hm
    unfold read_loop at h
    simp only at h
    split at h
    · simp only [Option.some.injEq] at h
      subst h; exact hm
    · split at h
      · simp at h
      · rename_i d hd
        exact ih _ _ h (decode_loop_tape_mem _ _ _ _ _ _ _ _ hd hm)

/-- The cells that `read_input` stores for a stream read without error: there are
at most as many as the stream has bytes, and each is in the alphabet. -/
theorem read_input_cells (S : List Nat) (state0 : mbstate_t) (buf : List Nat) (bufsize : Nat)
    (hb : 0 < bufsize) (isyms : Nat → Nat) (num_isyms : Nat) :
    ∃ cells : List Nat,
      written (read_input (stream bufsize S) state0 buf bufsize isyms num_isyms) = some cells ∧
      cells.length ≤ S.length ∧ ∀ w ∈ cells, is_isym w isyms num_isyms = true := by
  obtain ⟨e, he, _, _⟩ := read_input_returns S bufsize state0 buf isyms num_isyms
  refine ⟨e.tape, by rw [he]; rfl, ?_, ?_⟩
  · unfold read_input at he
    split at he
    · simp at he
    · rename_i e1 h1
      split at he
      · simp at he
      · simp only [Option.some.injEq, Ret.returned.injEq] at he
        subst he
        have := read_loop_tape_le _ _ _ _ _ _ _ h1
        rw [show ((stream bufsize S).map Fread.bytes).flatten = S from
          stream_chunks_join bufsize hb _ S (Nat.le_refl _)] at this
        simpa using this
  · unfold read_input at he
    split at he
    · simp at he
    · rename_i e1 h1
      split at he
      · simp at he
      · simp only [Option.some.injEq, Ret.returned.injEq] at he
        subst he
        exact read_loop_tape_mem _ _ _ _ _ _ _ h1 (by simp)

/-- C18. Every pass of the decode loop stores at most one cell and advances the
offset by at least one byte, so for every stream and alphabet `read_input` stores
at most as many cells as the stream has bytes. The reservation has `2 ^ 31` bytes
and cell `0` is at byte `2 ^ 30`; for a stream shorter than `2 ^ 28` bytes the byte
offset of the write cursor stays below `2 ^ 31`, and `tm_run` reaches the call of
the automaton. -/
theorem read_input_tape_within_stream (S : List Nat) (state0 : mbstate_t) (isyms : Nat → Nat)
    (num_isyms : Nat) :
    (∀ (buf : List Nat) (bufsize : Nat) (d : Dec),
      (decode_iter buf bufsize isyms num_isyms d).tape.length ≤ d.tape.length + 1 ∧
      d.offset + 1 ≤ (decode_iter buf bufsize isyms num_isyms d).offset) ∧
    (∀ (buf : List Nat) (bufsize : Nat), 0 < bufsize →
      ∃ cells : List Nat,
        written (read_input (stream bufsize S) state0 buf bufsize isyms num_isyms) =
          some cells ∧ cells.length ≤ S.length) ∧
    TAPE_SIZE = 2 ^ 31 ∧ TAPE_SIZE / 2 = 2 ^ 30 ∧
    (S.length < 2 ^ 28 →
      ∃ (cells : List Nat) (tape : Tape),
        written (read_input (stream STDIN_BUFSIZE S) state0 (List.replicate STDIN_BUFSIZE 0)
          STDIN_BUFSIZE isyms num_isyms) = some cells ∧
        TAPE_SIZE / 2 + CELL_BYTES * cells.length < TAPE_SIZE ∧
        tm_run_setup false (stream STDIN_BUFSIZE S) state0 isyms num_isyms =
          some (Ret.returned tape)) := by
  refine ⟨fun buf bufsize d => ⟨decode_iter_tape_le buf bufsize isyms num_isyms d,
      decode_iter_offset_lt buf bufsize isyms num_isyms d⟩,
    fun buf bufsize hb => ?_, rfl, rfl, fun hS => ?_⟩
  · obtain ⟨cells, h1, h2, _⟩ := read_input_cells S state0 buf bufsize hb isyms num_isyms
    exact ⟨cells, h1, h2⟩
  · have hcap : S.length ≤ TAPE_SIZE / 2 / CELL_BYTES := by
      have : TAPE_SIZE / 2 / CELL_BYTES = 2 ^ 28 := rfl
      omega
    obtain ⟨tape, cells, h1, h2, _⟩ := tm_run_setup_stream S state0 isyms num_isyms hcap
    obtain ⟨cells1, h3, h4, _⟩ := read_input_cells S state0 (List.replicate STDIN_BUFSIZE 0)
      STDIN_BUFSIZE (by decide) isyms num_isyms
    have hc : cells = cells1 := Option.some.inj (h2.symm.trans h3)
    subst hc
    refine ⟨cells, tape, h2, ?_, h1⟩
    have e1 : TAPE_SIZE = 2147483648 := rfl
    have e2 : CELL_BYTES = 4 := rfl
    rw [e1, e2]
    norm_num at hS
    omega

/-- Witness of `read_input_tape_within_stream`: the stream `1011bad\xFF01`. -/
theorem read_input_tape_within_stream_witness :
    [0x31, 0x30, 0x31, 0x31, 0x62, 0x61, 0x64, 0xFF, 0x30, 0x31].length < 2 ^ 28 ∧
    ∃ (cells : List Nat) (tape : Tape),
      written (read_input
          (stream STDIN_BUFSIZE [0x31, 0x30, 0x31, 0x31, 0x62, 0x61, 0x64, 0xFF, 0x30, 0x31])
          mbstate_init (List.replicate STDIN_BUFSIZE 0) STDIN_BUFSIZE
          (fun i => [0x30, 0x31].getD i 0) 2) = some cells ∧
        TAPE_SIZE / 2 + CELL_BYTES * cells.length < TAPE_SIZE ∧
        tm_run_setup false
            (stream STDIN_BUFSIZE [0x31, 0x30, 0x31, 0x31, 0x62, 0x61, 0x64, 0xFF, 0x30, 0x31])
            mbstate_init (fun i => [0x30, 0x31].getD i 0) 2 = some (Ret.returned tape) :=
  ⟨by decide, (read_input_tape_within_stream _ mbstate_init _ 2).2.2.2.2 (by decide)⟩

/-- With the automaton that halts at once on the cell it was given, `tm_run` on a
stream read without error that fits the tape reports the cells that `read_input`
stored, when Blank is not in the alphabet. -/
theorem tm_run_identity (S : List Nat) (state0 : mbstate_t) (isyms : Nat → Nat)
    (num_isyms : Nat) (hcap : S.length ≤ TAPE_SIZE / 2 / CELL_BYTES)
    (hblank : is_isym 0 isyms num_isyms = false) :
    ∃ cells : List Nat,
      written (read_input (stream STDIN_BUFSIZE S) state0 (List.replicate STDIN_BUFSIZE 0)
        STDIN_BUFSIZE isyms num_isyms) = some cells ∧
      ∀ fuel : Nat, cells.length ≤ fuel →
        tm_run fuel false (stream STDIN_BUFSIZE S) state0 (fun t p => FnResult.halt t p) isyms
          num_isyms = some (Ret.returned (cells.map symbol_line)) := by
  obtain ⟨tape, cells, hs, hw, hc, hz, _⟩ := tm_run_setup_stream S state0 isyms num_isyms hcap
  obtain ⟨cells1, h3, _, hm⟩ := read_input_cells S state0 (List.replicate STDIN_BUFSIZE 0)
    STDIN_BUFSIZE (by decide) isyms num_isyms
  have hcc : cells = cells1 := Option.some.inj (hw.symm.trans h3)
  subst hcc
  refine ⟨cells, hw, fun fuel hf => ?_⟩
  have hmem : ∀ j : Nat, j < cells.length →
      is_isym (tape (0 + (j : Int))) isyms num_isyms = true := by
    intro j hj
    rw [Int.zero_add]
    exact hm _ (List.getElem?_mem (hc j hj))
  have hk : is_isym (tape (0 + (cells.length : Int))) isyms num_isyms = false := by
    rw [Int.zero_add, hz _ (Int.le_refl _)]
    exact hblank
  rw [tm_run_halt fuel false _ state0 _ isyms num_isyms tape tape 0 hs rfl,
    write_output_scan tape isyms num_isyms cells.length fuel 0 hf hmem hk]
  simp only [Option.map_some', Option.some.injEq, Ret.returned.injEq]
  apply List.ext_getElem?
  intro i
  simp only [List.getElem?_map, List.getElem?_range]
  by_cases hi : i < cells.length
  · rw [List.getElem?_range hi, hc i hi]
    simp
  · rw [List.getElem?_eq_none (by simpa using hi), List.getElem?_eq_none (by simpa using hi)]
    rfl

/-- C19 (fails on the code). Standard input holds 8190 bytes `a`, then `E2 82 AC`,
the alphabet is `{U+20AC}` (no Blank) and the automaton halts at once on the head
it was given: the scalars decoded from the stream that are in the alphabet are
`U+20AC` alone, one line; `tm_run` reports no line, because `read_input` loses the
scalar at the chunk boundary. What holds for every stream that fits the tape and
every alphabet without Blank: `tm_run` reports exactly the cells `read_input`
stored, in order, one line each. -/
theorem tm_run_round_trip (state0 : mbstate_t) (isyms : Nat → Nat) (num_isyms : Nat) :
    (tm_run 1 false (stream STDIN_BUFSIZE (List.replicate 8190 0x61 ++ [0xE2, 0x82, 0xAC]))
        mbstate_init (fun t p => FnResult.halt t p) (fun _ => 0x20AC) 1 =
      some (Ret.returned []) ∧
    (spec_tape (List.replicate 8190 0x61 ++ [0xE2, 0x82, 0xAC]) (fun _ => 0x20AC) 1).map
      symbol_line = ["Symbol U+20AC in output stream\n"]) ∧
    (∀ S : List Nat, S.length ≤ TAPE_SIZE / 2 / CELL_BYTES →
      is_isym 0 isyms num_isyms = false →
      ∃ cells : List Nat,
        written (read_input (stream STDIN_BUFSIZE S) state0 (List.replicate STDIN_BUFSIZE 0)
          STDIN_BUFSIZE isyms num_isyms) = some cells ∧
        ∀ fuel : Nat, cells.length ≤ fuel →
          tm_run fuel false (stream STDIN_BUFSIZE S) state0 (fun t p => FnResult.halt t p) isyms
            num_isyms = some (Ret.returned (cells.map symbol_line))) := by
  refine ⟨⟨?_, ?_⟩, fun S hcap hblank => tm_run_identity S state0 isyms num_isyms hcap hblank⟩
  · have hlen : (List.replicate 8190 0x61 ++ [0xE2, 0x82, 0xAC]).length ≤
        TAPE_SIZE / 2 / CELL_BYTES := by
      simp only [List.length_append, List.length_replicate, List.length_cons, List.length_nil]
      decide
    obtain ⟨cells, hw, hrun⟩ := tm_run_identity (List.replicate 8190 0x61 ++ [0xE2, 0x82, 0xAC])
      mbstate_init (fun _ => 0x20AC) 1 hlen (by decide)
    have hw1 := read_input_split_euro 8190 (fun _ => 0x20AC) 1 (List.replicate STDIN_BUFSIZE 0)
      (List.length_replicate _ _) (by decide) (by decide)
    have hc : cells = [] := Option.some.inj (hw.symm.trans hw1)
    subst hc
    exact hrun 1 (by decide)
  · rw [spec_tape_euro 8190 _ 1 (by decide) (by decide)]
    decide

end TuringRT
